import Mathlib

/-!
Verification of the hierarchy-export-graph builder declared in
`source/blender/usd/intern/abstract_hierarchy_iterator.h`.

The header declares the data model (`HierarchyContext`, the export graph,
the writer registry) and the operations (`iterate`, `export_graph_construct`,
`export_graph_prune`, `determine_export_paths`,
`determine_duplication_references`, `ensure_writer`, `release_writers`);
the implementation unit is not part of the sources, so the behaviour of each
operation is modelled from the specification, faithful to its words, and the
structure definitions follow the header.  Objects are identified by natural
numbers standing for the `Object *` identities of the source; strings are
Lean strings; the scene evaluator, an external collaborator, is a record of
response functions.
-/

set_option autoImplicit false

namespace HierIter

/-- Modelled from the header (`struct HierarchyContext`): one export-time
instance of one object.  `matrix_world`, `parent_matrix_inv_world`
(floating-point matrices) and fields irrelevant to the graph logic are
omitted; `name` records the underlying object's name as captured during
graph construction (`get_object_name`). -/
structure HierarchyContext where
  object : Nat
  export_parent : Option Nat
  duplicator : Option Nat
  name : String
  export_name : String
  weak_export : Bool
  animation_check_include_parent : Bool
  export_path : String
  original_export_path : String
deriving DecidableEq

/-- Modelled from the header: `is_instance` is true when this context is
stored as a reference to its original, i.e. `original_export_path` is
non-empty. -/
def HierarchyContext.is_instance (c : HierarchyContext) : Bool :=
  c.original_export_path ≠ ""

/-- Modelled from the spec: marking a context as an instance of a reference
path stores that path in `original_export_path`. -/
def HierarchyContext.mark_as_instance_of (c : HierarchyContext)
    (reference_export_path : String) : HierarchyContext :=
  { c with original_export_path := reference_export_path }

/-- Modelled from the spec: marking a context as not instanced clears
`original_export_path`. -/
def HierarchyContext.mark_as_not_instanced (c : HierarchyContext) : HierarchyContext :=
  { c with original_export_path := "" }

/-- The export graph as a rooted forest: each node owns one
`HierarchyContext` and the set of export-children grouped under the entry
keyed by that context, per the header's
`std::map<std::pair<Object *, Object *>, std::set<HierarchyContext *>>`. -/
inductive CtxTree where
  | node : HierarchyContext → List CtxTree → CtxTree

/-- All contexts of a forest in depth-first pre-order (the deterministic
traversal order of the spec). -/
def allCtxF : List CtxTree → List HierarchyContext
  | [] => []
  | CtxTree.node c ts :: rest => c :: (allCtxF ts ++ allCtxF rest)

/-- All subtrees of a forest (every graph entry together with the subtree
it roots). -/
def subforests : List CtxTree → List CtxTree
  | [] => []
  | CtxTree.node c ts :: rest => CtxTree.node c ts :: (subforests ts ++ subforests rest)

/-- Modelled from the spec (§6): the external scene evaluator and the
injected policy hooks, at their interface boundary.  `children` exposes the
true parent/child hierarchy, `duplis` the duplication records reported for
an object (each entry an instanced object), `shouldExport` and
`shouldVisitDupli` the two policy predicates. -/
structure Scene where
  roots : List Nat
  children : Nat → List Nat
  objName : Nat → String
  duplis : Nat → List Nat
  shouldExport : Nat → Bool
  shouldVisitDupli : Nat → Nat → Bool

/-- Modelled from the spec (§4.1, `visit_object`): the context created for a
visited object of the true hierarchy; weak when the object is filtered out
by the should-export predicate. -/
def objCtx (s : Scene) (ob : Nat) (par : Option Nat) : HierarchyContext :=
  { object := ob, export_parent := par, duplicator := none,
    name := s.objName ob, export_name := "",
    weak_export := !s.shouldExport ob,
    animation_check_include_parent := false,
    export_path := "", original_export_path := "" }

/-- Modelled from the spec (§4.1, `visit_dupli_object`): the context created
for a duplication record, keyed by the duplicating object. -/
def dupCtx (s : Scene) (x dup : Nat) : HierarchyContext :=
  { object := x, export_parent := some dup, duplicator := some dup,
    name := s.objName x, export_name := "",
    weak_export := !s.shouldExport x,
    animation_check_include_parent := true,
    export_path := "", original_export_path := "" }

/-- Modelled from the spec (§4.1, `visit_dupli_object` and cycle handling):
visit the duplication records of one object.  `dset` is the set of objects
already on the current duplication chain; a record whose instanced object is
already on the chain is a self-reference and is skipped, not recursed into,
and no context is created for it.  The fuel argument is the explicit depth
limit of §5; exhausting it is the fatal-error outcome `none`. -/
def visitDuplis (s : Scene) : Nat → List Nat → Nat → List Nat → Option (List CtxTree)
  | 0, _, _, _ => none
  | _ + 1, [], _, _ => some []
  | fuel + 1, x :: xs, dup, dset =>
    if s.shouldVisitDupli dup x then
      if x ∈ dset then visitDuplis s fuel xs dup dset
      else
        match visitDuplis s fuel (s.duplis x) x (x :: dset),
              visitDuplis s fuel xs dup dset with
        | some sub, some rest => some (CtxTree.node (dupCtx s x dup) sub :: rest)
        | _, _ => none
    else visitDuplis s fuel xs dup dset

/-- Modelled from the spec (§4.1, `visit_object`): recursively walk the true
hierarchy, creating one context per visited object; for each visited object
its duplication records are additionally visited, the duplication chain
starting with the visited object itself. -/
def visitObjects (s : Scene) : Nat → List Nat → Option Nat → Option (List CtxTree)
  | 0, _, _ => none
  | _ + 1, [], _ => some []
  | fuel + 1, ob :: obs, par =>
    match visitObjects s fuel (s.children ob) (some ob),
          visitDuplis s fuel (s.duplis ob) ob [ob],
          visitObjects s fuel obs par with
    | some kids, some dups, some rest =>
        some (CtxTree.node (objCtx s ob par) (kids ++ dups) :: rest)
    | _, _, _ => none

/-- Modelled from the spec (§4.1): `export_graph_construct` builds the
export graph from the evaluator's top-level objects. -/
def export_graph_construct (s : Scene) (fuel : Nat) : Option (List CtxTree) :=
  visitObjects s fuel s.roots none

/-- Whether some context of the forest is real, i.e. not weak. -/
def hasRealF : List CtxTree → Bool
  | [] => false
  | CtxTree.node c ts :: rest => (!c.weak_export) || hasRealF ts || hasRealF rest

/-- Modelled from the spec (§4.2): `export_graph_prune` removes, bottom-up,
every graph entry whose entire subtree is weak; an entry survives exactly
when it is real itself or gates at least one real descendant. -/
def pruneF : List CtxTree → List CtxTree
  | [] => []
  | CtxTree.node c ts :: rest =>
    if (!c.weak_export) || hasRealF ts then
      CtxTree.node c (pruneF ts) :: pruneF rest
    else pruneF rest

/-- The object name recorded at the root of a subtree, the sort key of the
deterministic traversal. -/
def rootName : CtxTree → String
  | CtxTree.node c _ => c.name

/-- Stable insertion by object name (equal keys keep the earlier element
first, the stable secondary key being creation order). -/
def insertByName (t : CtxTree) : List CtxTree → List CtxTree
  | [] => [t]
  | u :: us => if rootName u < rootName t then u :: insertByName t us else t :: u :: us

/-- Stable sort of sibling contexts by object name (spec §4.2: traversal in
deterministic order, a stable sort by object name tie-broken by creation
order). -/
def sortByName : List CtxTree → List CtxTree
  | [] => []
  | t :: ts => insertByName t (sortByName ts)

/-- Sort every sibling list below the top level of the forest. -/
def sortForest : List CtxTree → List CtxTree
  | [] => []
  | CtxTree.node c ts :: rest => CtxTree.node c (sortByName (sortForest ts)) :: sortForest rest

/-- The forest with every sibling list, the top level included, in the
deterministic traversal order. -/
def sortAll (f : List CtxTree) : List CtxTree := sortByName (sortForest f)

/-- A decimal digit character. -/
def digitChar (d : Nat) : Char :=
  if d = 1 then '1' else if d = 2 then '2' else if d = 3 then '3'
  else if d = 4 then '4' else if d = 5 then '5' else if d = 6 then '6'
  else if d = 7 then '7' else if d = 8 then '8' else if d = 9 then '9' else '0'

/-- Decimal digits of a number, most significant first (fuel-indexed to stay
structurally recursive; `natChars` supplies enough fuel). -/
def natCharsAux : Nat → Nat → List Char
  | 0, n => [digitChar (n % 10)]
  | fuel + 1, n => if n < 10 then [digitChar n] else natCharsAux fuel (n / 10) ++ [digitChar (n % 10)]

/-- Decimal digits of a number, most significant first. -/
def natChars (n : Nat) : List Char := natCharsAux n n

/-- A numeric disambiguator rendered with at least three digits, as in the
spec's `name.001`, `name.002`, …. -/
def padNum (k : Nat) : List Char :=
  if k < 10 then '0' :: '0' :: natChars k
  else if k < 100 then '0' :: natChars k
  else natChars k

/-- The candidate sibling name with numeric disambiguator `k`. -/
def candName (base : String) (k : Nat) : String :=
  base ++ "." ++ String.mk (padNum k)

/-- Length of the longest name already assigned. -/
def maxLen (used : List String) : Nat :=
  used.foldr (fun u acc => max u.length acc) 0

/-- Modelled from the spec (§7, path collision exhaustion): the
guaranteed-unique synthetic fallback suffix, longer than every name already
assigned under the parent. -/
def fallbackName (used : List String) (base : String) : String :=
  base ++ "." ++ String.mk (List.replicate (maxLen used + 1) '0')

/-- Search for the first unused numeric disambiguator, falling back to the
synthetic suffix when the counter budget is exhausted. -/
def freshFrom (used : List String) (base : String) : Nat → Nat → String
  | 0, _ => fallbackName used base
  | fuel + 1, k =>
    if candName base k ∈ used then freshFrom used base fuel (k + 1) else candName base k

/-- Modelled from the spec (§4.2): a sibling name deduplicated against the
names already assigned under the same parent, by appending a numeric
disambiguator (`name`, `name.001`, `name.002`, …) on collision. -/
def freshName (used : List String) (base : String) : String :=
  if base ∈ used then freshFrom used base (used.length + 1) 1 else base

/-- Whether a character may appear in a valid export name. -/
def valid_char (c : Char) : Bool :=
  c.isAlpha || c.isDigit || c = '_' || c = '.'

/-- Modelled from the spec (§4.2): `make_valid_name` turns an object name
into a name valid for the target format; characters that are not letters,
digits, underscore or dot — the hierarchical path separator among them — are
replaced by underscore. -/
def make_valid_name (s : String) : String :=
  String.mk (s.data.map (fun c => if valid_char c then c else '_'))

/-- Modelled from the header and the spec (§4.2): `path_concatenate` joins a
parent path and a child name with the fixed hierarchical separator. -/
def path_concatenate (parent_path child_path : String) : String :=
  parent_path ++ "/" ++ child_path

/-- Modelled from the spec (§4.2): `determine_export_paths` traverses the
graph depth-first in deterministic order, assigns each context's
`export_name` from the underlying object's name — made valid and
deduplicated against the sibling names already assigned under the same
parent — and sets `export_path` to the parent's path joined with the
disambiguated name. -/
def assignF : String → List String → List CtxTree → List CtxTree
  | _, _, [] => []
  | pp, used, CtxTree.node c ts :: rest =>
    let nm := freshName used (make_valid_name c.name)
    let path := path_concatenate pp nm
    CtxTree.node { c with export_name := nm, export_path := path } (assignF path [] ts)
      :: assignF pp (nm :: used) rest

/-- The Original-Path Map of the spec (`ExportPathMap` of the header):
object identity to export path of its first-encountered real context. -/
def PathMap : Type := List (Nat × String)

/-- Lookup in the Original-Path Map. -/
def pmLookup (m : PathMap) (o : Nat) : Option String :=
  match m with
  | [] => none
  | (k, v) :: rest => if k = o then some v else pmLookup rest o

/-- Insertion into the Original-Path Map (only ever performed on a key that
is absent). -/
def pmInsert (m : PathMap) (o : Nat) (p : String) : PathMap :=
  (o, p) :: m

/-- Entry preservation between Original-Path Maps: every binding of the
first is a binding of the second. -/
def pmLe (m M : PathMap) : Prop :=
  ∀ o p, pmLookup m o = some p → pmLookup M o = some p

/-- Modelled from the spec (§3, Original-Path Map): registration effect of
one context — a real (non-weak, non-reference) context's export path is
recorded under its object identity unless an entry is already present. -/
def regStep (m : PathMap) (c : HierarchyContext) : PathMap :=
  if c.duplicator = none ∧ c.weak_export = false then
    match pmLookup m c.object with
    | some _ => m
    | none => pmInsert m c.object c.export_path
  else m

/-- Modelled from the spec (§3, Original-Path Map): register, in traversal
order, every real (non-weak, non-reference) context's export path under its
object identity, keeping the first-encountered entry. -/
def registerF (m : PathMap) : List CtxTree → PathMap
  | [] => m
  | CtxTree.node c ts :: rest => registerF (registerF (regStep m c) ts) rest

/-- Modelled from the spec (§4.2, `determine_duplication_references`): for a
context whose `duplicator` is set, look the underlying object up in the
Original-Path Map; when found with a path that differs from this context's
own path, mark the context as an instance of that path; when found with the
context's own path, or not found at all, the context is its own first real
occurrence — left non-instanced, and registered on a miss for subsequent
instances to reference.  Contexts without duplicator are untouched. -/
def resolveCtx (m : PathMap) (c : HierarchyContext) : HierarchyContext × PathMap :=
  match c.duplicator with
  | none => (c, m)
  | some _ =>
    match pmLookup m c.object with
    | some p =>
      if p ≠ c.export_path then (c.mark_as_instance_of p, m)
      else (c.mark_as_not_instanced, m)
    | none => (c.mark_as_not_instanced, pmInsert m c.object c.export_path)

/-- Modelled from the spec (§4.2): duplication resolution over the whole
graph, in the deterministic traversal order. -/
def resolveF (m : PathMap) : List CtxTree → List CtxTree × PathMap
  | [] => ([], m)
  | CtxTree.node c ts :: rest =>
    let (c', m1) := resolveCtx m c
    let (ts', m2) := resolveF m1 ts
    let (rest', m3) := resolveF m2 rest
    (CtxTree.node c' ts' :: rest', m3)

/-- The iterator state that survives a pass: the header's
`originals_export_paths` member (the export graph itself is discarded by
`export_graph_clear` at the end of the pass). -/
structure IterState where
  originals_export_paths : PathMap

/-- Modelled from the spec (§4.4): one full pass — graph construction,
pruning, deterministic ordering, path assignment, registration of originals
and duplication resolution.  The resolved graph is the observable result of
the pass (it drives writer creation and writing before being discarded by
`export_graph_clear`). -/
def iterate (s : Scene) (fuel : Nat) (st : IterState) :
    Option (List CtxTree × IterState) :=
  match export_graph_construct s fuel with
  | none => none
  | some f0 =>
    let f2 := assignF "" [] (sortAll (pruneF f0))
    let m1 := registerF st.originals_export_paths f2
    match resolveF m1 f2 with
    | (f3, m2) => some (f3, ⟨m2⟩)

/-- The writer registry (`WriterMap` of the header): export/data path to the
owned writer, writers identified by numbers. -/
structure WriterState where
  writers : List (String × Nat)

/-- Modelled from the spec (§4.3): `get_writer` returns the cached writer
for a name, or none. -/
def get_writer (st : WriterState) (name : String) : Option Nat :=
  match st.writers.find? (fun kv => kv.1 == name) with
  | some kv => some kv.2
  | none => none

/-- Modelled from the spec (§4.3): `ensure_writer` returns the writer cached
under the context's export path when present; otherwise it invokes the
factory hook and caches a non-null result; a null factory result caches
nothing. -/
def ensure_writer (st : WriterState) (c : HierarchyContext)
    (create_func : HierarchyContext → Option Nat) : Option Nat × WriterState :=
  match get_writer st c.export_path with
  | some w => (some w, st)
  | none =>
    match create_func c with
    | some w => (some w, ⟨(c.export_path, w) :: st.writers⟩)
    | none => (none, st)

/-- Modelled from the spec (§4.3): `release_writers` iterates the cache,
invokes the external teardown hook `delete_object_writer` once per writer,
then clears the cache.  The first component lists the writers passed to the
teardown hook, in invocation order. -/
def release_writers (st : WriterState) : List Nat × WriterState :=
  (st.writers.map (fun kv => kv.2), ⟨[]⟩)

/-- The export paths of all contexts of a forest, in traversal order. -/
def pathsOfF (f : List CtxTree) : List String :=
  (allCtxF f).map (fun c => c.export_path)

/-- A plain real, non-duplicated context for concrete test forests. -/
def mkCtx (ob : Nat) (nm : String) : HierarchyContext :=
  { object := ob, export_parent := none, duplicator := none,
    name := nm, export_name := "", weak_export := false,
    animation_check_include_parent := false,
    export_path := "", original_export_path := "" }

/-- A minimal concrete scene: one top-level object, no duplication. -/
def sceneS : Scene :=
  { roots := [1],
    children := fun _ => [],
    objName := fun _ => "a",
    duplis := fun _ => [],
    shouldExport := fun _ => true,
    shouldVisitDupli := fun _ _ => true }

/-- The resolved graph and final map of a first pass over `sceneS`. -/
def passS1 : List CtxTree × PathMap :=
  resolveF (registerF []
      (assignF "" [] (sortAll (pruneF [CtxTree.node (objCtx sceneS 1 none) []]))))
    (assignF "" [] (sortAll (pruneF [CtxTree.node (objCtx sceneS 1 none) []])))

/-- The resolved graph and final map of a second pass over `sceneS` from the
state the first pass left behind. -/
def passS2 : List CtxTree × PathMap :=
  resolveF (registerF passS1.2
      (assignF "" [] (sortAll (pruneF [CtxTree.node (objCtx sceneS 1 none) []]))))
    (assignF "" [] (sortAll (pruneF [CtxTree.node (objCtx sceneS 1 none) []])))

/-- A concrete scene shaped like the spec's Scenario B: object `5` is
duplicated by `1` and by `2`, and also passes the predicate as a direct
top-level object. -/
def sceneB : Scene :=
  { roots := [1, 2, 5],
    children := fun _ => [],
    objName := fun o => if o = 1 then "D1" else if o = 2 then "D2" else "X",
    duplis := fun o => if o = 1 then [5] else if o = 2 then [5] else [],
    shouldExport := fun _ => true,
    shouldVisitDupli := fun _ _ => true }

/-- A concrete scene shaped like the spec's Scenario D: object `1` is
transitively duplicated by itself (`1` duplicates `2`, `2` duplicates `1`). -/
def sceneD : Scene :=
  { roots := [1],
    children := fun _ => [],
    objName := fun o => if o = 1 then "A" else "B",
    duplis := fun o => if o = 1 then [2] else if o = 2 then [1] else [],
    shouldExport := fun _ => true,
    shouldVisitDupli := fun _ _ => true }

/-- The export graph constructed for `sceneD`: one context for `1`, one
duplication context for `2`, and nothing for the self-referential link. -/
def forestD : List CtxTree :=
  [CtxTree.node (objCtx sceneD 1 none) [CtxTree.node (dupCtx sceneD 2 1) []]]

/-- A concrete pre-assignment forest shaped like the spec's Scenario A:
three sibling objects named `Cube` under the same export-parent. -/
def forestA : List CtxTree :=
  [CtxTree.node (mkCtx 1 "Parent")
    [CtxTree.node (mkCtx 2 "Cube") [],
     CtxTree.node (mkCtx 3 "Cube") [],
     CtxTree.node (mkCtx 4 "Cube") []]]

/-- A duplicated context of object `7`, instanced by object `1`. -/
def ctxE : HierarchyContext :=
  { object := 7, export_parent := some 1, duplicator := some 1,
    name := "Y", export_name := "Y", weak_export := false,
    animation_check_include_parent := true,
    export_path := "/D/Y", original_export_path := "" }

/-- A concrete path-assigned graph in which object `7` is referenced via
duplication by object `1` while its original is not part of the exported
objects: no real non-duplicated context for `7` exists anywhere. -/
def forestE : List CtxTree :=
  [CtxTree.node { mkCtx 1 "D" with export_name := "D", export_path := "/D" }
    [CtxTree.node ctxE []]]

/-- A concrete path-assigned graph for the duplication-reference claims:
object `5` has a real non-duplicated context at `/X` and two duplication
contexts at `/D1/X` and `/D2/X`. -/
def forestB : List CtxTree :=
  [CtxTree.node { mkCtx 1 "D1" with export_name := "D1", export_path := "/D1" }
    [CtxTree.node { object := 5, export_parent := some 1, duplicator := some 1,
                    name := "X", export_name := "X", weak_export := false,
                    animation_check_include_parent := true,
                    export_path := "/D1/X", original_export_path := "" } []],
   CtxTree.node { mkCtx 2 "D2" with export_name := "D2", export_path := "/D2" }
    [CtxTree.node { object := 5, export_parent := some 2, duplicator := some 2,
                    name := "X", export_name := "X", weak_export := false,
                    animation_check_include_parent := true,
                    export_path := "/D2/X", original_export_path := "" } []],
   CtxTree.node { mkCtx 5 "X" with export_name := "X", export_path := "/X" } []]

/-- A concrete forest with a weak context gating a real descendant and a
fully weak subtree, for the pruning claims. -/
def forestC : List CtxTree :=
  [CtxTree.node { mkCtx 1 "Y" with weak_export := true }
    [CtxTree.node (mkCtx 2 "Z") []],
   CtxTree.node { mkCtx 3 "W" with weak_export := true }
    [CtxTree.node { mkCtx 4 "V" with weak_export := true } []]]

/-- Structural induction principle for export-graph forests. -/
theorem forest_ind {P : List CtxTree → Prop} (h0 : P [])
    (h1 : ∀ c ts rest, P ts → P rest → P (CtxTree.node c ts :: rest)) :
    ∀ f, P f := by
  have key : ∀ n f, sizeOf f ≤ n → P f := by
    intro n
    induction n with
    | zero =>
      intro f hf
      cases f with
      | nil => exact h0
      | cons t rest =>
        exfalso
        cases t
        simp at hf
    | succ n ih =>
      intro f hf
      cases f with
      | nil => exact h0
      | cons t rest =>
        cases t with
        | node c ts =>
          simp at hf
          exact h1 c ts rest (ih ts (by omega)) (ih rest (by omega))
  intro f
  exact key (sizeOf f) f (Nat.le_refl _)

/-- C10: `is_instance` is true exactly when `original_export_path` is
non-empty; after `mark_as_instance_of p` with non-empty `p` the
`original_export_path` equals `p` and `is_instance` is true; after
`mark_as_not_instanced` the `original_export_path` is empty and
`is_instance` is false. -/
theorem claim_C10 (c : HierarchyContext) (p : String) :
    (c.is_instance = true ↔ c.original_export_path ≠ "") ∧
    (p ≠ "" →
      (c.mark_as_instance_of p).original_export_path = p ∧
      (c.mark_as_instance_of p).is_instance = true) ∧
    (c.mark_as_not_instanced.original_export_path = "" ∧
     c.mark_as_not_instanced.is_instance = false) := by
  refine ⟨?_, ?_, ?_, ?_⟩
  · simp [HierarchyContext.is_instance]
  · intro hp
    simp [HierarchyContext.mark_as_instance_of, HierarchyContext.is_instance, hp]
  · simp [HierarchyContext.mark_as_not_instanced]
  · simp [HierarchyContext.mark_as_not_instanced, HierarchyContext.is_instance]

/-- Witness for C10 at a concrete context and reference path. -/
theorem claim_C10_witness :
    ((mkCtx 1 "a").mark_as_instance_of "/b").original_export_path = "/b" ∧
    ((mkCtx 1 "a").mark_as_instance_of "/b").is_instance = true :=
  (claim_C10 (mkCtx 1 "a") "/b").2.1 (by decide)

/-- C5: releasing the writers passes each cached writer to the teardown hook
once; a second release in a row passes nothing to the hook — over both calls
each writer is torn down exactly once — and leaves the empty registry
unchanged, an error-free no-op. -/
theorem claim_C5 (st : WriterState) :
    (release_writers st).1 = st.writers.map (fun kv => kv.2) ∧
    (release_writers (release_writers st).2).1 = [] ∧
    (release_writers (release_writers st).2).2 = (release_writers st).2 ∧
    (release_writers st).1 ++ (release_writers (release_writers st).2).1
      = st.writers.map (fun kv => kv.2) := by
  simp [release_writers]

/-- C6: `ensure_writer` returns the cached writer without consulting the
factory when the key is cached; otherwise it invokes the factory and caches
a non-null result under the key; a null factory result caches nothing and
leaves the state unchanged, so a later call with the same key invokes the
factory again. -/
theorem claim_C6 (st : WriterState) (c : HierarchyContext)
    (create create' : HierarchyContext → Option Nat) :
    (∀ w, get_writer st c.export_path = some w →
       ensure_writer st c create = (some w, st) ∧
       ensure_writer st c create = ensure_writer st c create') ∧
    (∀ w, get_writer st c.export_path = none → create c = some w →
       (ensure_writer st c create).1 = some w ∧
       get_writer (ensure_writer st c create).2 c.export_path = some w) ∧
    (get_writer st c.export_path = none → create c = none →
       ensure_writer st c create = (none, st) ∧
       ∀ w', create' c = some w' →
         (ensure_writer (ensure_writer st c create).2 c create').1 = some w') := by
  refine ⟨?_, ?_, ?_⟩
  · intro w hw
    simp [ensure_writer, hw]
  · intro w hw hc
    have h1 : ensure_writer st c create = (some w, ⟨(c.export_path, w) :: st.writers⟩) := by
      simp [ensure_writer, hw, hc]
    rw [h1]
    simp [get_writer, List.find?]
  · intro hw hc
    refine ⟨by simp [ensure_writer, hw, hc], ?_⟩
    intro w' hw'
    simp [ensure_writer, hw, hc, hw']

/-- Witness for C6: with an empty cache, a factory returning null caches
nothing, and a retry with the same key and a working factory succeeds. -/
theorem claim_C6_witness :
    ensure_writer ⟨[]⟩ (mkCtx 1 "a") (fun _ => none) = (none, ⟨[]⟩) ∧
    (ensure_writer (ensure_writer ⟨[]⟩ (mkCtx 1 "a") (fun _ => none)).2
      (mkCtx 1 "a") (fun _ => some 7)).1 = some 7 := by
  have h := (claim_C6 ⟨[]⟩ (mkCtx 1 "a") (fun _ => none) (fun _ => some 7)).2.2
      (by rfl) (by rfl)
  exact ⟨h.1, h.2 7 (by rfl)⟩

/-- C7: a duplication chain that re-enters itself terminates — the graph for
the transitively self-duplicating scene is built with a small, fuel-stable
recursion depth — the self-referential link is skipped rather than recursed
into, and no context is created for the offending link: the forest holds
exactly one context per chain member and a single duplication context. -/
theorem claim_C7 :
    export_graph_construct sceneD 4 = some forestD ∧
    export_graph_construct sceneD 100 = some forestD ∧
    (∀ (s : Scene) (fuel x : Nat) (xs : List Nat) (dup : Nat) (dset : List Nat),
       x ∈ dset →
       visitDuplis s (fuel + 1) (x :: xs) dup dset = visitDuplis s fuel xs dup dset) ∧
    ((allCtxF forestD).filter (fun c => c.object = 1)).length = 1 ∧
    ((allCtxF forestD).filter (fun c => c.object = 2)).length = 1 ∧
    ((allCtxF forestD).filter (fun c => c.duplicator ≠ none)).length = 1 := by
  have hD : allCtxF forestD = [objCtx sceneD 1 none, dupCtx sceneD 2 1] := by
    simp [forestD, allCtxF]
  refine ⟨by rfl, by rfl, ?_, ?_, ?_, ?_⟩
  · intro s fuel x xs dup dset hx
    by_cases hv : s.shouldVisitDupli dup x
    · simp [visitDuplis, hv, hx]
    · simp [visitDuplis, hv]
  · rw [hD]; decide
  · rw [hD]; decide
  · rw [hD]; decide

/-- Witness for C7: the re-entrant link of the self-duplication chain of
`sceneD` is skipped without creating a context. -/
theorem claim_C7_witness :
    visitDuplis sceneD 3 [1] 2 [2, 1] = visitDuplis sceneD 2 [] 2 [2, 1] :=
  claim_C7.2.2.1 sceneD 2 1 [] 2 [2, 1] (by decide)

/-- C9: three sibling objects named `Cube` under the same export-parent are
assigned the paths `.../Cube`, `.../Cube.001` and `.../Cube.002` by
`determine_export_paths`. -/
theorem claim_C9 :
    (allCtxF (assignF "" [] forestA)).map (fun c => c.export_path)
      = ["/Parent", "/Parent/Cube", "/Parent/Cube.001", "/Parent/Cube.002"] := by
  simp only [forestA, assignF, allCtxF]
  decide

/-- A forest has a real node exactly when some contained context is
non-weak. -/
theorem hasRealF_iff (f : List CtxTree) :
    hasRealF f = true ↔ ∃ c ∈ allCtxF f, c.weak_export = false := by
  induction f using forest_ind with
  | h0 => simp [hasRealF, allCtxF]
  | h1 c ts rest ih1 ih2 =>
    simp only [hasRealF, allCtxF, Bool.or_eq_true, ih1, ih2]
    simp only [List.mem_cons, List.mem_append, Bool.not_eq_true']
    constructor
    · rintro ((h | ⟨d, hd, hw⟩) | ⟨d, hd, hw⟩)
      · exact ⟨c, Or.inl rfl, h⟩
      · exact ⟨d, Or.inr (Or.inl hd), hw⟩
      · exact ⟨d, Or.inr (Or.inr hd), hw⟩
    · rintro ⟨d, (rfl | hd | hd), hw⟩
      · exact Or.inl (Or.inl hw)
      · exact Or.inl (Or.inr ⟨d, hd, hw⟩)
      · exact Or.inr ⟨d, hd, hw⟩

/-- Pruning preserves the real contexts: the non-weak contexts of the pruned
forest are exactly those of the original forest. -/
theorem prune_filter_eq (f : List CtxTree) :
    (allCtxF (pruneF f)).filter (fun c => !c.weak_export)
      = (allCtxF f).filter (fun c => !c.weak_export) := by
  induction f using forest_ind with
  | h0 => simp [pruneF, allCtxF]
  | h1 c ts rest ih1 ih2 =>
    by_cases h : ((!c.weak_export) || hasRealF ts) = true
    · simp only [pruneF, if_pos h, allCtxF]
      rw [List.filter_cons, List.filter_cons, List.filter_append, List.filter_append,
        ih1, ih2]
    · have hw : c.weak_export = true := by
        cases hcw : c.weak_export with
        | true => rfl
        | false =>
          exact absurd (show ((!c.weak_export) || hasRealF ts) = true by simp [hcw]) h
      have hr : hasRealF ts = false := by
        cases hrt : hasRealF ts with
        | false => rfl
        | true => exact absurd (by simp [hrt]) h
      have hall : (allCtxF ts).filter (fun c => !c.weak_export) = [] := by
        rw [List.filter_eq_nil_iff]
        intro d hd
        by_contra hdw
        exact absurd ((hasRealF_iff ts).mpr ⟨d, hd, by simpa using hdw⟩) (by simp [hr])
      simp [pruneF, h, allCtxF, List.filter_append, List.filter_cons, ih2, hw, hr, hall]

/-- Every weak context surviving the prune gates at least one real context
among its descendants in the pruned graph. -/
theorem prune_weak_gates (f : List CtxTree) :
    ∀ c ts, CtxTree.node c ts ∈ subforests (pruneF f) → c.weak_export = true →
      ∃ d ∈ allCtxF ts, d.weak_export = false := by
  induction f using forest_ind with
  | h0 =>
    intro c ts hmem
    simp [pruneF, subforests] at hmem
  | h1 c0 ts0 rest ih1 ih2 =>
    intro c ts hmem hw
    by_cases h : ((!c0.weak_export) || hasRealF ts0) = true
    · rw [pruneF] at hmem
      rw [if_pos h] at hmem
      rw [subforests] at hmem
      rcases List.mem_cons.mp hmem with h1 | h1
      · obtain ⟨hc, hts⟩ := CtxTree.node.inj h1
        subst hc
        subst hts
        have hreal : hasRealF ts0 = true := by
          rcases Bool.or_eq_true _ _ |>.mp h with h' | h'
          · rw [hw] at h'
            simp at h'
          · exact h'
        obtain ⟨d, hd, hdw⟩ := (hasRealF_iff ts0).mp hreal
        have hmem' : d ∈ (allCtxF (pruneF ts0)).filter (fun x => !x.weak_export) := by
          rw [prune_filter_eq]
          exact List.mem_filter.mpr ⟨hd, by simp [hdw]⟩
        obtain ⟨hd', hdw'⟩ := List.mem_filter.mp hmem'
        exact ⟨d, hd', by simpa using hdw'⟩
      · rcases List.mem_append.mp h1 with h2 | h2
        · exact ih1 c ts h2 hw
        · exact ih2 c ts h2 hw
    · rw [pruneF] at hmem
      rw [if_neg h] at hmem
      exact ih2 c ts hmem hw

/-- C4: after `export_graph_prune`, every context still marked weak has at
least one real descendant in the pruned graph, and no real context is
contained in a removed subtree — the real contexts of the pruned forest are
exactly those of the original. -/
theorem claim_C4 (f : List CtxTree) :
    ((allCtxF (pruneF f)).filter (fun c => !c.weak_export)
      = (allCtxF f).filter (fun c => !c.weak_export)) ∧
    (∀ c ts, CtxTree.node c ts ∈ subforests (pruneF f) → c.weak_export = true →
       ∃ d ∈ allCtxF ts, d.weak_export = false) :=
  ⟨prune_filter_eq f, prune_weak_gates f⟩

/-- Witness for C4 on a concrete forest: the surviving weak context `Y`
gates the real context `Z`, and the real contexts are preserved. -/
theorem claim_C4_witness :
    ((allCtxF (pruneF forestC)).filter (fun c => !c.weak_export)
      = (allCtxF forestC).filter (fun c => !c.weak_export)) ∧
    (∃ d ∈ allCtxF [CtxTree.node (mkCtx 2 "Z") []], d.weak_export = false) := by
  refine ⟨(claim_C4 forestC).1, ?_⟩
  refine (claim_C4 forestC).2 { mkCtx 1 "Y" with weak_export := true }
    [CtxTree.node (mkCtx 2 "Z") []] ?_ (by decide)
  simp [forestC, pruneF, hasRealF, subforests, mkCtx]

/-- Left cancellation of list append. -/
theorem append_cancel {α : Type} : ∀ (a b c : List α), a ++ b = a ++ c → b = c := by
  intro a
  induction a with
  | nil => intro b c h; simpa using h
  | cons x xs ih =>
    intro b c h
    simp only [List.cons_append, List.cons.injEq] at h
    exact ih b c h.2

/-- Strings with equal character data are equal. -/
theorem string_eq_of_data (a b : String) (h : a.data = b.data) : a = b := by
  cases a
  cases b
  simp only [String.data] at h
  rw [h]

/-- Digit characters are never the path separator. -/
theorem digitChar_ne_sep (d : Nat) : digitChar d ≠ '/' := by
  unfold digitChar
  repeat' split
  all_goals decide

/-- Decimal renderings never contain the path separator. -/
theorem natCharsAux_ne_sep (fuel : Nat) : ∀ n, ∀ ch ∈ natCharsAux fuel n, ch ≠ '/' := by
  induction fuel with
  | zero =>
    intro n ch hch
    simp only [natCharsAux, List.mem_singleton] at hch
    subst hch
    exact digitChar_ne_sep _
  | succ fuel ih =>
    intro n ch hch
    rw [natCharsAux] at hch
    by_cases h : n < 10
    · rw [if_pos h] at hch
      simp only [List.mem_singleton] at hch
      subst hch
      exact digitChar_ne_sep _
    · rw [if_neg h] at hch
      rcases List.mem_append.mp hch with h1 | h1
      · exact ih _ ch h1
      · simp only [List.mem_singleton] at h1
        subst h1
        exact digitChar_ne_sep _

/-- Padded numeric disambiguators never contain the path separator. -/
theorem padNum_ne_sep (k : Nat) : ∀ ch ∈ padNum k, ch ≠ '/' := by
  intro ch hch
  rw [padNum] at hch
  by_cases h1 : k < 10
  · rw [if_pos h1] at hch
    simp only [List.mem_cons] at hch
    rcases hch with rfl | rfl | h
    · decide
    · decide
    · exact natCharsAux_ne_sep _ _ ch h
  · rw [if_neg h1] at hch
    by_cases h2 : k < 100
    · rw [if_pos h2] at hch
      simp only [List.mem_cons] at hch
      rcases hch with rfl | h
      · decide
      · exact natCharsAux_ne_sep _ _ ch h
    · rw [if_neg h2] at hch
      exact natCharsAux_ne_sep _ _ ch hch

/-- Every assigned name is at most as long as the longest assigned name. -/
theorem maxLen_ge : ∀ (used : List String), ∀ u ∈ used, u.length ≤ maxLen used := by
  intro used
  induction used with
  | nil => simp
  | cons v vs ih =>
    intro u hu
    rcases List.mem_cons.mp hu with rfl | hu
    · simp [maxLen]
    · have h1 := ih u hu
      have h2 : maxLen (v :: vs) = max v.length (maxLen vs) := rfl
      omega

/-- The synthetic fallback suffix is longer than, hence different from,
every name already assigned. -/
theorem fallbackName_not_mem (used : List String) (base : String) :
    fallbackName used base ∉ used := by
  intro hmem
  have h1 := maxLen_ge used _ hmem
  have h2 : (fallbackName used base).length = base.length + 1 + (maxLen used + 1) := by
    simp [fallbackName, String.length_append]
    rfl
  omega

/-- The disambiguator search never returns an already-assigned name. -/
theorem freshFrom_not_mem (used : List String) (base : String) :
    ∀ fuel k, freshFrom used base fuel k ∉ used := by
  intro fuel
  induction fuel with
  | zero =>
    intro k
    rw [freshFrom]
    exact fallbackName_not_mem used base
  | succ fuel ih =>
    intro k
    rw [freshFrom]
    by_cases h : candName base k ∈ used
    · rw [if_pos h]
      exact ih _
    · rw [if_neg h]
      exact h

/-- `freshName` never returns an already-assigned sibling name. -/
theorem freshName_not_mem (used : List String) (base : String) :
    freshName used base ∉ used := by
  rw [freshName]
  by_cases h : base ∈ used
  · rw [if_pos h]
    exact freshFrom_not_mem used base _ _
  · rw [if_neg h]
    exact h

/-- Valid names never contain the path separator. -/
theorem make_valid_name_ne_sep (s : String) : '/' ∉ (make_valid_name s).data := by
  intro h
  simp only [make_valid_name, String.data, List.mem_map] at h
  obtain ⟨c, _, hmap⟩ := h
  by_cases hv : valid_char c = true
  · rw [if_pos hv] at hmap
    subst hmap
    simp [valid_char] at hv
  · rw [if_neg hv] at hmap
    exact absurd hmap (by decide)

/-- Candidate disambiguated names never contain the path separator when the
base does not. -/
theorem candName_ne_sep (base : String) (k : Nat) (hb : '/' ∉ base.data) :
    '/' ∉ (candName base k).data := by
  intro h
  rw [candName] at h
  rw [String.data_append, String.data_append] at h
  rcases List.mem_append.mp h with h1 | h1
  · rcases List.mem_append.mp h1 with h2 | h2
    · exact hb h2
    · simp at h2
  · exact padNum_ne_sep k '/' h1 rfl

/-- The fallback name never contains the path separator when the base does
not. -/
theorem fallbackName_ne_sep (used : List String) (base : String) (hb : '/' ∉ base.data) :
    '/' ∉ (fallbackName used base).data := by
  intro h
  rw [fallbackName, String.data_append, String.data_append] at h
  rcases List.mem_append.mp h with h1 | h1
  · rcases List.mem_append.mp h1 with h2 | h2
    · exact hb h2
    · simp at h2
  · have := List.eq_of_mem_replicate h1
    simp at this

/-- The disambiguator search never introduces the path separator. -/
theorem freshFrom_ne_sep (used : List String) (base : String) (hb : '/' ∉ base.data) :
    ∀ fuel k, '/' ∉ (freshFrom used base fuel k).data := by
  intro fuel
  induction fuel with
  | zero =>
    intro k
    rw [freshFrom]
    exact fallbackName_ne_sep used base hb
  | succ fuel ih =>
    intro k
    rw [freshFrom]
    by_cases hc : candName base k ∈ used
    · rw [if_pos hc]
      exact ih _
    · rw [if_neg hc]
      exact candName_ne_sep base k hb

/-- `freshName` never introduces the path separator. -/
theorem freshName_ne_sep (used : List String) (base : String) (hb : '/' ∉ base.data) :
    '/' ∉ (freshName used base).data := by
  rw [freshName]
  by_cases h : base ∈ used
  · rw [if_pos h]
    exact freshFrom_ne_sep used base hb _ _
  · rw [if_neg h]
    exact hb

/-- Unique decomposition of a path tail: `name ++ rest` with `name`
separator-free and `rest` empty or separator-headed determines both parts. -/
theorem sep_split_unique :
    ∀ (n1 n2 r1 r2 : List Char), '/' ∉ n1 → '/' ∉ n2 →
      (r1 = [] ∨ ∃ t, r1 = '/' :: t) → (r2 = [] ∨ ∃ t, r2 = '/' :: t) →
      n1 ++ r1 = n2 ++ r2 → n1 = n2 ∧ r1 = r2 := by
  intro n1
  induction n1 with
  | nil =>
    intro n2 r1 r2 h1 h2 hr1 hr2 heq
    cases n2 with
    | nil => exact ⟨rfl, by simpa using heq⟩
    | cons c n2' =>
      simp only [List.nil_append, List.cons_append] at heq
      rcases hr1 with rfl | ⟨t, rfl⟩
      · exact absurd heq.symm (List.cons_ne_nil _ _)
      · have hc : c = '/' := ((List.cons.inj heq).1).symm
        subst hc
        exact absurd (List.mem_cons_self _ _) h2
  | cons c n1' ih =>
    intro n2 r1 r2 h1 h2 hr1 hr2 heq
    cases n2 with
    | nil =>
      simp only [List.cons_append, List.nil_append] at heq
      rcases hr2 with rfl | ⟨t, rfl⟩
      · exact absurd heq (List.cons_ne_nil _ _)
      · have hc : c = '/' := (List.cons.inj heq).1
        subst hc
        exact absurd (List.mem_cons_self _ _) h1
    | cons d n2' =>
      simp only [List.cons_append, List.cons.injEq] at heq
      obtain ⟨rfl, heq'⟩ := heq
      have h1' : '/' ∉ n1' := fun h => h1 (List.mem_cons_of_mem _ h)
      have h2' : '/' ∉ n2' := fun h => h2 (List.mem_cons_of_mem _ h)
      obtain ⟨he, hr⟩ := ih n2' r1 r2 h1' h2' hr1 hr2 heq'
      exact ⟨by rw [he], hr⟩

/-- Character data of a concatenated path. -/
theorem path_concatenate_data (pp nm : String) :
    (path_concatenate pp nm).data = pp.data ++ '/' :: nm.data := by
  rw [path_concatenate, String.data_append, String.data_append]
  show pp.data ++ ['/'] ++ nm.data = _
  rw [List.append_assoc]
  rfl

/-- Paths of a forest headed by one node. -/
theorem pathsOfF_cons (c : HierarchyContext) (ts rest : List CtxTree) :
    pathsOfF (CtxTree.node c ts :: rest) = c.export_path :: (pathsOfF ts ++ pathsOfF rest) := by
  simp [pathsOfF, allCtxF]

/-- Core step of the path-uniqueness argument: a sibling whose name is fresh
and separator-free, its subtree paths, and the later siblings' paths are
pairwise distinct and decompose over the parent path. -/
theorem assign_cons_spec
    (pp p' : String) (used : List String) (nm : String)
    (hsep : '/' ∉ nm.data) (hused : nm ∉ used)
    (hdata : p'.data = pp.data ++ '/' :: nm.data)
    (A B : List String)
    (hA_nodup : A.Nodup)
    (hA : ∀ q ∈ A, ∃ (m : String) (r : List Char),
      q.data = p'.data ++ '/' :: (m.data ++ r) ∧ '/' ∉ m.data ∧ (r = [] ∨ ∃ t, r = '/' :: t))
    (hB_nodup : B.Nodup)
    (hB : ∀ q ∈ B, ∃ (m : String) (r : List Char),
      q.data = pp.data ++ '/' :: (m.data ++ r) ∧ '/' ∉ m.data ∧
      (r = [] ∨ ∃ t, r = '/' :: t) ∧ m ∉ nm :: used) :
    (p' :: (A ++ B)).Nodup ∧
    (∀ q ∈ p' :: (A ++ B), ∃ (m : String) (r : List Char),
      q.data = pp.data ++ '/' :: (m.data ++ r) ∧ '/' ∉ m.data ∧
      (r = [] ∨ ∃ t, r = '/' :: t) ∧ m ∉ used) := by
  constructor
  · rw [List.nodup_cons]
    refine ⟨?_, List.Nodup.append hA_nodup hB_nodup ?_⟩
    · intro hmem
      rcases List.mem_append.mp hmem with hq | hq
      · obtain ⟨m, r, hqd, hms, hmr⟩ := hA _ hq
        have hlen := congrArg List.length hqd
        simp [List.length_append] at hlen
      · obtain ⟨m, r, hqd, hms, hmr, hmu⟩ := hB _ hq
        rw [hdata] at hqd
        have h1 := append_cancel _ _ _ hqd
        have h2 := (List.cons.inj h1).2
        have h3 := sep_split_unique nm.data m.data [] r hsep hms (Or.inl rfl) hmr
          (by rw [List.append_nil]; exact h2)
        exact hmu (List.mem_cons.mpr (Or.inl (string_eq_of_data m nm h3.1.symm)))
    · intro q hqA hqB
      obtain ⟨m1, r1, hq1, hm1s, hm1r⟩ := hA _ hqA
      obtain ⟨m2, r2, hq2, hm2s, hm2r, hm2u⟩ := hB _ hqB
      rw [hdata] at hq1
      have hcomb : pp.data ++ '/' :: (nm.data ++ '/' :: (m1.data ++ r1))
          = pp.data ++ '/' :: (m2.data ++ r2) := by
        rw [← hq2, hq1]
        simp [List.append_assoc]
      have h1 := (List.cons.inj (append_cancel _ _ _ hcomb)).2
      have h3 := sep_split_unique nm.data m2.data ('/' :: (m1.data ++ r1)) r2 hsep hm2s
        (Or.inr ⟨_, rfl⟩) hm2r h1
      exact hm2u (List.mem_cons.mpr (Or.inl (string_eq_of_data m2 nm h3.1.symm)))
  · intro q hq
    rcases List.mem_cons.mp hq with rfl | hq'
    · exact ⟨nm, [], by rw [hdata, List.append_nil], hsep, Or.inl rfl, hused⟩
    · rcases List.mem_append.mp hq' with hqA | hqB
      · obtain ⟨m, r, hqd, hms, hmr⟩ := hA _ hqA
        refine ⟨nm, '/' :: (m.data ++ r), ?_, hsep, Or.inr ⟨_, rfl⟩, hused⟩
        rw [hqd, hdata]
        simp [List.append_assoc]
      · obtain ⟨m, r, hqd, hms, hmr, hmu⟩ := hB _ hqB
        exact ⟨m, r, hqd, hms, hmr, fun hm => hmu (List.mem_cons_of_mem _ hm)⟩

/-- Invariant of `determine_export_paths`: every assigned path decomposes
uniquely over the parent path with a fresh separator-free first component,
and all assigned paths in the subtree are pairwise distinct. -/
theorem assignF_spec (f : List CtxTree) : ∀ (pp : String) (used : List String),
    (pathsOfF (assignF pp used f)).Nodup ∧
    (∀ q ∈ pathsOfF (assignF pp used f), ∃ (m : String) (r : List Char),
      q.data = pp.data ++ '/' :: (m.data ++ r) ∧ '/' ∉ m.data ∧
      (r = [] ∨ ∃ t, r = '/' :: t) ∧ m ∉ used) := by
  induction f using forest_ind with
  | h0 =>
    intro pp used
    constructor
    · simp [assignF, pathsOfF, allCtxF]
    · intro q hq
      simp [assignF, pathsOfF, allCtxF] at hq
  | h1 c ts rest ih1 ih2 =>
    intro pp used
    have hsep := freshName_ne_sep used (make_valid_name c.name) (make_valid_name_ne_sep c.name)
    have hused := freshName_not_mem used (make_valid_name c.name)
    have hdata := path_concatenate_data pp (freshName used (make_valid_name c.name))
    have IH1 := ih1 (path_concatenate pp (freshName used (make_valid_name c.name))) []
    have IH2 := ih2 pp (freshName used (make_valid_name c.name) :: used)
    have heq : pathsOfF (assignF pp used (CtxTree.node c ts :: rest))
        = path_concatenate pp (freshName used (make_valid_name c.name))
          :: (pathsOfF (assignF (path_concatenate pp (freshName used (make_valid_name c.name))) [] ts)
             ++ pathsOfF (assignF pp (freshName used (make_valid_name c.name) :: used) rest)) := by
      simp only [assignF]
      rw [pathsOfF_cons]
    rw [heq]
    exact assign_cons_spec pp _ used _ hsep hused hdata _ _ IH1.1
      (fun q hq => by
        obtain ⟨m, r, h1, h2, h3, _⟩ := IH1.2 q hq
        exact ⟨m, r, h1, h2, h3⟩)
      IH2.1 IH2.2

/-- Duplication resolution changes at most `original_export_path` of a
context: every other field is preserved. -/
theorem resolveCtx_fields (m : PathMap) (c : HierarchyContext) :
    (resolveCtx m c).1.object = c.object ∧
    (resolveCtx m c).1.export_path = c.export_path ∧
    (resolveCtx m c).1.duplicator = c.duplicator ∧
    (resolveCtx m c).1.weak_export = c.weak_export := by
  rw [resolveCtx]
  rcases hd : c.duplicator with _ | d
  · exact ⟨rfl, rfl, hd.symm ▸ rfl, rfl⟩
  · rcases hl : pmLookup m c.object with _ | p
    · simp [HierarchyContext.mark_as_not_instanced, hd]
    · by_cases hp : p ≠ c.export_path
      · simp [HierarchyContext.mark_as_instance_of, hd, hp]
      · simp [HierarchyContext.mark_as_not_instanced, hd, hp]

/-- Duplication resolution preserves every export path. -/
theorem resolveF_paths (f : List CtxTree) :
    ∀ m, pathsOfF (resolveF m f).1 = pathsOfF f := by
  induction f using forest_ind with
  | h0 =>
    intro m
    simp [resolveF]
  | h1 c ts rest ih1 ih2 =>
    intro m
    have ho := (resolveCtx_fields m c).2.1
    rcases h1 : resolveCtx m c with ⟨c', m1⟩
    rcases h2 : resolveF m1 ts with ⟨ts', m2⟩
    rcases h3 : resolveF m2 rest with ⟨rest', m3⟩
    have hres : resolveF m (CtxTree.node c ts :: rest) = (CtxTree.node c' ts' :: rest', m3) := by
      simp [resolveF, h1, h2, h3]
    rw [hres]
    have hc' : c'.export_path = c.export_path := by
      have hfst : (resolveCtx m c).1 = c' := by rw [h1]
      rw [← hfst, ho]
    have hts : pathsOfF ts' = pathsOfF ts := by
      have hfst : (resolveF m1 ts).1 = ts' := by rw [h2]
      rw [← hfst, ih1]
    have hrest : pathsOfF rest' = pathsOfF rest := by
      have hfst : (resolveF m2 rest).1 = rest' := by rw [h3]
      rw [← hfst, ih2]
    rw [pathsOfF_cons, pathsOfF_cons, hc', hts, hrest]

/-- C1: after a completed pass — construction, pruning, path assignment and
duplication resolution — the `export_path` values of all contexts in the
export graph are pairwise distinct. -/
theorem claim_C1 (s : Scene) (fuel : Nat) (st : IterState) (f : List CtxTree)
    (st' : IterState) (h : iterate s fuel st = some (f, st')) :
    (pathsOfF f).Nodup := by
  rw [iterate] at h
  cases hc : export_graph_construct s fuel with
  | none =>
    rw [hc] at h
    exact absurd h (by simp)
  | some f0 =>
    rw [hc] at h
    dsimp only at h
    rcases hr : resolveF (registerF st.originals_export_paths
        (assignF "" [] (sortAll (pruneF f0)))) (assignF "" [] (sortAll (pruneF f0)))
      with ⟨f3, m2⟩
    rw [hr] at h
    dsimp only at h
    simp only [Option.some.injEq, Prod.mk.injEq] at h
    obtain ⟨hf, _⟩ := h
    subst hf
    have hfst : (resolveF (registerF st.originals_export_paths
        (assignF "" [] (sortAll (pruneF f0)))) (assignF "" [] (sortAll (pruneF f0)))).1 = f3 := by
      rw [hr]
    have hpaths : pathsOfF f3 = pathsOfF (assignF "" [] (sortAll (pruneF f0))) := by
      rw [← hfst, resolveF_paths]
    rw [hpaths]
    exact (assignF_spec (sortAll (pruneF f0)) "" []).1

/-- Evaluation of one pass when construction succeeds. -/
theorem iterate_some (s : Scene) (fuel : Nat) (st : IterState) (f0 : List CtxTree)
    (h : export_graph_construct s fuel = some f0) :
    iterate s fuel st
      = some ((resolveF (registerF st.originals_export_paths
            (assignF "" [] (sortAll (pruneF f0))))
            (assignF "" [] (sortAll (pruneF f0)))).1,
          ⟨(resolveF (registerF st.originals_export_paths
            (assignF "" [] (sortAll (pruneF f0))))
            (assignF "" [] (sortAll (pruneF f0)))).2⟩) := by
  unfold iterate
  rw [h]

/-- Witness for C1: the pass over the one-object scene yields pairwise
distinct export paths. -/
theorem claim_C1_witness :
    (pathsOfF ((resolveF (registerF ([] : PathMap)
        (assignF "" [] (sortAll (pruneF [CtxTree.node (objCtx sceneS 1 none) []]))))
        (assignF "" [] (sortAll (pruneF [CtxTree.node (objCtx sceneS 1 none) []])))).1)).Nodup :=
  claim_C1 sceneS 2 ⟨[]⟩ _ _ (iterate_some sceneS 2 ⟨[]⟩ _ rfl)

/-- Contexts of a forest headed by one node. -/
theorem allCtxF_cons (c : HierarchyContext) (ts rest : List CtxTree) :
    allCtxF (CtxTree.node c ts :: rest) = c :: (allCtxF ts ++ allCtxF rest) := by
  simp [allCtxF]

/-- Lookup after inserting the looked-up key. -/
theorem pmLookup_insert_self (m : PathMap) (o : Nat) (p : String) :
    pmLookup (pmInsert m o p) o = some p := by
  simp [pmInsert, pmLookup]

/-- Lookup after inserting a different key. -/
theorem pmLookup_insert_other (m : PathMap) (o o' : Nat) (p : String) (h : o ≠ o') :
    pmLookup (pmInsert m o p) o' = pmLookup m o' := by
  simp [pmInsert, pmLookup, h]

/-- Transitivity of map preservation. -/
theorem pmLe_trans {m1 m2 m3 : PathMap} (h1 : pmLe m1 m2) (h2 : pmLe m2 m3) :
    pmLe m1 m3 :=
  fun o p h => h2 o p (h1 o p h)

/-- Resolution of a context without duplicator is the identity. -/
theorem resolveCtx_nondup (m : PathMap) (c : HierarchyContext)
    (h : c.duplicator = none) : resolveCtx m c = (c, m) := by
  simp [resolveCtx, h]

/-- Resolution of a duplicated context whose original is mapped to a
different path marks it as an instance. -/
theorem resolveCtx_dup_found (m : PathMap) (c : HierarchyContext) (d : Nat) (p : String)
    (hd : c.duplicator = some d) (hl : pmLookup m c.object = some p)
    (hp : p ≠ c.export_path) :
    resolveCtx m c = (c.mark_as_instance_of p, m) := by
  simp [resolveCtx, hd, hl, hp]

/-- Resolution of a duplicated context whose original is mapped to its own
path leaves it non-instanced. -/
theorem resolveCtx_dup_self (m : PathMap) (c : HierarchyContext) (d : Nat)
    (hd : c.duplicator = some d) (hl : pmLookup m c.object = some c.export_path) :
    resolveCtx m c = (c.mark_as_not_instanced, m) := by
  simp [resolveCtx, hd, hl]

/-- Resolution of a duplicated context with no mapped original registers it
as its own first real occurrence. -/
theorem resolveCtx_dup_missing (m : PathMap) (c : HierarchyContext) (d : Nat)
    (hd : c.duplicator = some d) (hl : pmLookup m c.object = none) :
    resolveCtx m c = (c.mark_as_not_instanced, pmInsert m c.object c.export_path) := by
  simp [resolveCtx, hd, hl]

/-- Resolution of one context preserves the existing map entries. -/
theorem resolveCtx_pmLe (m : PathMap) (c : HierarchyContext) :
    pmLe m (resolveCtx m c).2 := by
  intro o p hop
  rcases hd : c.duplicator with _ | d
  · rw [resolveCtx_nondup m c hd]
    exact hop
  · rcases hl : pmLookup m c.object with _ | q
    · rw [resolveCtx_dup_missing m c d hd hl]
      have hne : c.object ≠ o := by
        intro he
        rw [he] at hl
        rw [hl] at hop
        exact Option.noConfusion hop
      rw [pmLookup_insert_other m c.object o c.export_path hne]
      exact hop
    · by_cases hp : q ≠ c.export_path
      · rw [resolveCtx_dup_found m c d q hd hl hp]
        exact hop
      · rw [resolveCtx_dup_self m c d hd (by rw [hl]; simp at hp; rw [hp])]
        exact hop

/-- Resolution over a forest preserves the existing map entries. -/
theorem resolveF_pmLe (f : List CtxTree) : ∀ m, pmLe m (resolveF m f).2 := by
  induction f using forest_ind with
  | h0 =>
    intro m
    simp [resolveF]
    intro o p h
    exact h
  | h1 c ts rest ih1 ih2 =>
    intro m
    rcases h1 : resolveCtx m c with ⟨c', m1⟩
    rcases h2 : resolveF m1 ts with ⟨ts', m2⟩
    rcases h3 : resolveF m2 rest with ⟨rest', m3⟩
    have hres : resolveF m (CtxTree.node c ts :: rest) = (CtxTree.node c' ts' :: rest', m3) := by
      simp [resolveF, h1, h2, h3]
    rw [hres]
    have e1 : pmLe m m1 := by
      have := resolveCtx_pmLe m c
      rw [h1] at this
      exact this
    have e2 : pmLe m1 m2 := by
      have := ih1 m1
      rw [h2] at this
      exact this
    have e3 : pmLe m2 m3 := by
      have := ih2 m2
      rw [h3] at this
      exact this
    exact pmLe_trans (pmLe_trans e1 e2) e3

/-- Registering one context when an entry for its object is present, or
when it is weak or a reference, changes nothing. -/
theorem regStep_skip (m : PathMap) (c : HierarchyContext)
    (h : ¬(c.duplicator = none ∧ c.weak_export = false) ∨ (pmLookup m c.object).isSome) :
    regStep m c = m := by
  rw [regStep]
  by_cases hc : c.duplicator = none ∧ c.weak_export = false
  · rw [if_pos hc]
    rcases hl : pmLookup m c.object with _ | q
    · rcases h with h | h
      · exact absurd hc h
      · rw [hl] at h
        exact absurd h (by simp)
    · rfl
  · rw [if_neg hc]

/-- Registering a real non-reference context with no existing entry inserts
its path. -/
theorem regStep_insert (m : PathMap) (c : HierarchyContext)
    (hc : c.duplicator = none ∧ c.weak_export = false)
    (hl : pmLookup m c.object = none) :
    regStep m c = pmInsert m c.object c.export_path := by
  rw [regStep, if_pos hc, hl]

/-- The registration step preserves the existing map entries. -/
theorem regStep_pmLe (m : PathMap) (c : HierarchyContext) : pmLe m (regStep m c) := by
  intro o p hop
  rw [regStep]
  by_cases hc : c.duplicator = none ∧ c.weak_export = false
  · rw [if_pos hc]
    rcases hl : pmLookup m c.object with _ | q
    · have hne : c.object ≠ o := by
        intro he
        rw [he] at hl
        rw [hl] at hop
        exact Option.noConfusion hop
      rw [pmLookup_insert_other m c.object o c.export_path hne]
      exact hop
    · exact hop
  · rw [if_neg hc]
    exact hop

/-- Registration of originals preserves the existing map entries. -/
theorem registerF_pmLe (f : List CtxTree) : ∀ m, pmLe m (registerF m f) := by
  induction f using forest_ind with
  | h0 =>
    intro m o p h
    simpa [registerF] using h
  | h1 c ts rest ih1 ih2 =>
    intro m
    have hreg : registerF m (CtxTree.node c ts :: rest)
        = registerF (registerF (regStep m c) ts) rest := by
      simp [registerF]
    rw [hreg]
    exact pmLe_trans (pmLe_trans (regStep_pmLe m c) (ih1 _)) (ih2 _)

/-- Once the Original-Path Map binds an object to an owner path, resolution
keeps the binding and marks every duplicated context of that object as an
instance of the owner path — except a context whose own path is the owner
path, which stays non-instanced. -/
theorem resolveF_found (O : Nat) (p : String) (f : List CtxTree) : ∀ m,
    pmLookup m O = some p →
    pmLookup (resolveF m f).2 O = some p ∧
    (∀ c ∈ allCtxF (resolveF m f).1, c.object = O → c.duplicator ≠ none →
      (c.export_path ≠ p → c.original_export_path = p) ∧
      (c.export_path = p → c.original_export_path = "")) := by
  induction f using forest_ind with
  | h0 =>
    intro m hm
    constructor
    · simpa [resolveF] using hm
    · intro c hc
      simp [resolveF, allCtxF] at hc
  | h1 c ts rest ih1 ih2 =>
    intro m hm
    rcases h1 : resolveCtx m c with ⟨c', m1⟩
    rcases h2 : resolveF m1 ts with ⟨ts', m2⟩
    rcases h3 : resolveF m2 rest with ⟨rest', m3⟩
    have hres : resolveF m (CtxTree.node c ts :: rest) = (CtxTree.node c' ts' :: rest', m3) := by
      simp [resolveF, h1, h2, h3]
    rw [hres]
    have hkey : pmLookup m1 O = some p ∧ (c'.object = O → c'.duplicator ≠ none →
        (c'.export_path ≠ p → c'.original_export_path = p) ∧
        (c'.export_path = p → c'.original_export_path = "")) := by
      rcases hd : c.duplicator with _ | d
      · rw [resolveCtx_nondup m c hd] at h1
        injection h1 with hc' hm1
        refine ⟨by rw [← hm1]; exact hm, ?_⟩
        intro _ hdup
        rw [← hc', hd] at hdup
        exact absurd rfl hdup
      · by_cases hO : c.object = O
        · have hl : pmLookup m c.object = some p := by rw [hO]; exact hm
          by_cases hp : p ≠ c.export_path
          · rw [resolveCtx_dup_found m c d p hd hl hp] at h1
            injection h1 with hc' hm1
            refine ⟨by rw [← hm1]; exact hm, ?_⟩
            intro _ _
            constructor
            · intro _
              rw [← hc']
              simp [HierarchyContext.mark_as_instance_of]
            · intro hpe
              rw [← hc'] at hpe
              simp [HierarchyContext.mark_as_instance_of] at hpe
              exact absurd hpe.symm hp
          · push_neg at hp
            have hl' : pmLookup m c.object = some c.export_path := by rw [hl, hp]
            rw [resolveCtx_dup_self m c d hd hl'] at h1
            injection h1 with hc' hm1
            refine ⟨by rw [← hm1]; exact hm, ?_⟩
            intro _ _
            constructor
            · intro hne
              rw [← hc'] at hne
              simp [HierarchyContext.mark_as_not_instanced] at hne
              rw [hp] at hne
              exact absurd rfl hne
            · intro _
              rw [← hc']
              simp [HierarchyContext.mark_as_not_instanced]
        · have hne : c.object ≠ O := hO
          have hm1O : pmLookup m1 O = some p := by
            rcases hl : pmLookup m c.object with _ | q
            · rw [resolveCtx_dup_missing m c d hd hl] at h1
              injection h1 with hc' hm1
              rw [← hm1, pmLookup_insert_other m c.object O c.export_path hne]
              exact hm
            · by_cases hq : q ≠ c.export_path
              · rw [resolveCtx_dup_found m c d q hd hl hq] at h1
                injection h1 with hc' hm1
                rw [← hm1]
                exact hm
              · push_neg at hq
                have hl' : pmLookup m c.object = some c.export_path := by rw [hl, hq]
                rw [resolveCtx_dup_self m c d hd hl'] at h1
                injection h1 with hc' hm1
                rw [← hm1]
                exact hm
          refine ⟨hm1O, ?_⟩
          intro hc'O
          have hobj : c'.object = c.object := by
            have := (resolveCtx_fields m c).1
            rw [h1] at this
            exact this
          rw [hobj] at hc'O
          exact absurd hc'O hne
    obtain ⟨hm1O, hc'prop⟩ := hkey
    have IH1 := ih1 m1 hm1O
    rw [h2] at IH1
    have IH2 := ih2 m2 IH1.1
    rw [h3] at IH2
    refine ⟨IH2.1, ?_⟩
    intro x hx hxO hxd
    rw [allCtxF_cons] at hx
    rcases List.mem_cons.mp hx with rfl | hx'
    · exact hc'prop hxO hxd
    · rcases List.mem_append.mp hx' with h | h
      · exact IH1.2 x h hxO hxd
      · exact IH2.2 x h hxO hxd

/-- Size of an appended forest. -/
theorem sizeOf_append_forest : ∀ (f g : List CtxTree),
    sizeOf (f ++ g) + 1 = sizeOf f + sizeOf g := by
  intro f g
  induction f with
  | nil => simp; omega
  | cons t rest ih => simp at ih ⊢; omega

/-- Induction over forests where the children and the remaining siblings
are handled as one combined tail. -/
theorem forest_ind2 {P : List CtxTree → Prop} (h0 : P [])
    (h1 : ∀ c ts rest, P (ts ++ rest) → P (CtxTree.node c ts :: rest)) :
    ∀ f, P f := by
  have key : ∀ n f, sizeOf f ≤ n → P f := by
    intro n
    induction n with
    | zero =>
      intro f hf
      cases f with
      | nil => exact h0
      | cons t rest =>
        exfalso
        cases t
        simp at hf
    | succ n ih =>
      intro f hf
      cases f with
      | nil => exact h0
      | cons t rest =>
        cases t with
        | node c ts =>
          simp at hf
          refine h1 c ts rest (ih (ts ++ rest) ?_)
          have := sizeOf_append_forest ts rest
          omega
  intro f
  exact key (sizeOf f) f (Nat.le_refl _)

/-- Contexts of an appended forest. -/
theorem allCtxF_append : ∀ (f g : List CtxTree),
    allCtxF (f ++ g) = allCtxF f ++ allCtxF g := by
  intro f g
  induction f using forest_ind with
  | h0 => simp [allCtxF]
  | h1 c ts rest ih1 ih2 =>
    simp [allCtxF, ih2, List.append_assoc]

/-- Resolution over an appended forest is resolution of the first part
followed by resolution of the second from the resulting map. -/
theorem resolveF_append (f g : List CtxTree) : ∀ m,
    resolveF m (f ++ g)
      = ((resolveF m f).1 ++ (resolveF (resolveF m f).2 g).1,
         (resolveF (resolveF m f).2 g).2) := by
  induction f with
  | nil =>
    intro m
    simp [resolveF]
  | cons t rest ih =>
    cases t with
    | node c ts =>
      intro m
      rcases h1 : resolveCtx m c with ⟨c', m1⟩
      rcases h2 : resolveF m1 ts with ⟨ts', m2⟩
      rcases h3 : resolveF m2 (rest ++ g) with ⟨rg', m4⟩
      rcases h5 : resolveF m2 rest with ⟨rest', m3⟩
      rcases h6 : resolveF m3 g with ⟨g', m5⟩
      have hl : resolveF m (CtxTree.node c ts :: (rest ++ g))
          = (CtxTree.node c' ts' :: rg', m4) := by
        simp [resolveF, h1, h2, h3]
      have hres : resolveF m (CtxTree.node c ts :: rest) = (CtxTree.node c' ts' :: rest', m3) := by
        simp [resolveF, h1, h2, h5]
      have hih := ih m2
      rw [h5] at hih
      rw [h6] at hih
      rw [h3] at hih
      injection hih with hihl hihr
      show resolveF m (CtxTree.node c ts :: (rest ++ g)) = _
      rw [hl, hres, hihl, hihr]
      simp [h6]

/-- Resolution of a forest for an object without a mapped original: either
no duplicated context of the object occurs and the object stays unmapped, or
the first duplicated context of the object becomes the canonical owner — its
`original_export_path` stays empty, its path is registered, and every other
duplicated context of the object is marked as an instance of it. -/
theorem resolveF_missing (O : Nat) (f : List CtxTree) : ∀ m,
    pmLookup m O = none →
    ((∀ c ∈ allCtxF (resolveF m f).1, c.object = O → c.duplicator = none) ∧
      pmLookup (resolveF m f).2 O = none)
    ∨ (∃ c1, c1 ∈ allCtxF (resolveF m f).1 ∧ c1.object = O ∧ c1.duplicator ≠ none ∧
        c1.original_export_path = "" ∧
        pmLookup (resolveF m f).2 O = some c1.export_path ∧
        (∀ c ∈ allCtxF (resolveF m f).1, c.object = O → c.duplicator ≠ none →
          (c.export_path ≠ c1.export_path → c.original_export_path = c1.export_path) ∧
          (c.export_path = c1.export_path → c.original_export_path = ""))) := by
  induction f using forest_ind2 with
  | h0 =>
    intro m hm
    left
    constructor
    · intro c hc
      simp [resolveF, allCtxF] at hc
    · simpa [resolveF] using hm
  | h1 c ts rest IH =>
    intro m hm
    rcases h1 : resolveCtx m c with ⟨c', m1⟩
    rcases h2a : resolveF m1 ts with ⟨ts', m2⟩
    rcases h2b : resolveF m2 rest with ⟨rest', m3⟩
    have htr : resolveF m1 (ts ++ rest) = (ts' ++ rest', m3) := by
      rw [resolveF_append, h2a]
      dsimp only
      rw [h2b]
    have hres : resolveF m (CtxTree.node c ts :: rest) = (CtxTree.node c' ts' :: rest', m3) := by
      simp [resolveF, h1, h2a, h2b]
    rw [hres]
    have hmem : ∀ x : HierarchyContext,
        x ∈ allCtxF (CtxTree.node c' ts' :: rest') ↔ x = c' ∨ x ∈ allCtxF (ts' ++ rest') := by
      intro x
      rw [allCtxF_cons, allCtxF_append]
      simp [List.mem_cons, List.mem_append]
    have hsplit : (pmLookup m1 O = none ∧ (c'.object = O → c'.duplicator = none))
        ∨ (c'.object = O ∧ c'.duplicator ≠ none ∧ c'.original_export_path = "" ∧
           pmLookup m1 O = some c'.export_path) := by
      rcases hd : c.duplicator with _ | d
      · rw [resolveCtx_nondup m c hd] at h1
        injection h1 with hc' hm1e
        left
        constructor
        · rw [← hm1e]
          exact hm
        · intro _
          rw [← hc']
          exact hd
      · by_cases hO : c.object = O
        · have hl : pmLookup m c.object = none := by rw [hO]; exact hm
          rw [resolveCtx_dup_missing m c d hd hl] at h1
          injection h1 with hc' hm1e
          right
          refine ⟨?_, ?_, ?_, ?_⟩
          · rw [← hc']
            simpa [HierarchyContext.mark_as_not_instanced] using hO
          · rw [← hc']
            simp [HierarchyContext.mark_as_not_instanced, hd]
          · rw [← hc']
            simp [HierarchyContext.mark_as_not_instanced]
          · have hpath : c'.export_path = c.export_path := by
              rw [← hc']
              simp [HierarchyContext.mark_as_not_instanced]
            rw [← hm1e, hpath, ← hO]
            exact pmLookup_insert_self m c.object c.export_path
        · left
          constructor
          · rcases hl : pmLookup m c.object with _ | q
            · rw [resolveCtx_dup_missing m c d hd hl] at h1
              injection h1 with hc' hm1e
              rw [← hm1e, pmLookup_insert_other m c.object O c.export_path hO]
              exact hm
            · by_cases hq : q ≠ c.export_path
              · rw [resolveCtx_dup_found m c d q hd hl hq] at h1
                injection h1 with hc' hm1e
                rw [← hm1e]
                exact hm
              · push_neg at hq
                rw [resolveCtx_dup_self m c d hd (by rw [hl, hq])] at h1
                injection h1 with hc' hm1e
                rw [← hm1e]
                exact hm
          · intro hc'O
            have hobj : c'.object = c.object := by
              have := (resolveCtx_fields m c).1
              rw [h1] at this
              exact this
            rw [hobj] at hc'O
            exact absurd hc'O hO
    rcases hsplit with ⟨hm1n, hvac⟩ | ⟨hO', hd', horig', hm1O⟩
    · have IHres := IH m1 hm1n
      rw [htr] at IHres
      rcases IHres with ⟨hall, hnone⟩ | ⟨c1, hc1mem, hc1O, hc1d, hc1orig, hc1map, hc1all⟩
      · left
        refine ⟨?_, hnone⟩
        intro x hx hxO
        rcases (hmem x).mp hx with rfl | hx'
        · exact hvac hxO
        · exact hall x hx' hxO
      · right
        refine ⟨c1, (hmem c1).mpr (Or.inr hc1mem), hc1O, hc1d, hc1orig, hc1map, ?_⟩
        intro x hx hxO hxd
        rcases (hmem x).mp hx with rfl | hx'
        · exact absurd (hvac hxO) hxd
        · exact hc1all x hx' hxO hxd
    · have hfound := resolveF_found O c'.export_path (ts ++ rest) m1 hm1O
      rw [htr] at hfound
      right
      refine ⟨c', (hmem c').mpr (Or.inl rfl), hO', hd', horig', hfound.1, ?_⟩
      intro x hx hxO hxd
      rcases (hmem x).mp hx with rfl | hx'
      · constructor
        · intro hne
          exact absurd rfl hne
        · intro _
          exact horig'
      · exact hfound.2 x hx' hxO hxd

/-- Non-duplicated contexts pass through duplication resolution unchanged:
forward direction. -/
theorem resolveF_nondup_mem (f : List CtxTree) : ∀ m c0,
    c0 ∈ allCtxF (resolveF m f).1 → c0.duplicator = none → c0 ∈ allCtxF f := by
  induction f using forest_ind2 with
  | h0 =>
    intro m c0 h
    simp [resolveF, allCtxF] at h
  | h1 c ts rest IH =>
    intro m c0 hmem hdup
    rcases h1 : resolveCtx m c with ⟨c', m1⟩
    rcases h2a : resolveF m1 ts with ⟨ts', m2⟩
    rcases h2b : resolveF m2 rest with ⟨rest', m3⟩
    have htr : resolveF m1 (ts ++ rest) = (ts' ++ rest', m3) := by
      rw [resolveF_append, h2a]
      dsimp only
      rw [h2b]
    have hres : resolveF m (CtxTree.node c ts :: rest) = (CtxTree.node c' ts' :: rest', m3) := by
      simp [resolveF, h1, h2a, h2b]
    rw [hres] at hmem
    rw [allCtxF_cons] at hmem
    have htail : allCtxF ts' ++ allCtxF rest' = allCtxF (ts' ++ rest') := (allCtxF_append ts' rest').symm
    rw [allCtxF_cons, ← allCtxF_append]
    rcases List.mem_cons.mp hmem with rfl | hx
    · have hfl := (resolveCtx_fields m c).2.2.1
      rw [h1] at hfl
      have hcd : c.duplicator = none := by rw [← hfl]; exact hdup
      rw [resolveCtx_nondup m c hcd] at h1
      injection h1 with hc' _
      rw [← hc']
      exact List.mem_cons_self _ _
    · rw [htail] at hx
      have := IH m1 c0 (by rw [htr]; exact hx) hdup
      exact List.mem_cons_of_mem _ this

/-- Non-duplicated contexts pass through duplication resolution unchanged:
backward direction. -/
theorem resolveF_nondup_mem_back (f : List CtxTree) : ∀ m c0,
    c0 ∈ allCtxF f → c0.duplicator = none → c0 ∈ allCtxF (resolveF m f).1 := by
  induction f using forest_ind2 with
  | h0 =>
    intro m c0 h
    simp [allCtxF] at h
  | h1 c ts rest IH =>
    intro m c0 hmem hdup
    rcases h1 : resolveCtx m c with ⟨c', m1⟩
    rcases h2a : resolveF m1 ts with ⟨ts', m2⟩
    rcases h2b : resolveF m2 rest with ⟨rest', m3⟩
    have htr : resolveF m1 (ts ++ rest) = (ts' ++ rest', m3) := by
      rw [resolveF_append, h2a]
      dsimp only
      rw [h2b]
    have hres : resolveF m (CtxTree.node c ts :: rest) = (CtxTree.node c' ts' :: rest', m3) := by
      simp [resolveF, h1, h2a, h2b]
    rw [hres, allCtxF_cons, ← allCtxF_append]
    rw [allCtxF_cons, ← allCtxF_append] at hmem
    rcases List.mem_cons.mp hmem with rfl | hx
    · rw [resolveCtx_nondup m c0 hdup] at h1
      injection h1 with hc' _
      rw [← hc']
      exact List.mem_cons_self _ _
    · have := IH m1 c0 hx hdup
      rw [htr] at this
      exact List.mem_cons_of_mem _ this

/-- Lookup through the registration step at a key the context does not
register. -/
theorem regStep_lookup (m : PathMap) (c : HierarchyContext) (O : Nat)
    (h : ¬(c.object = O ∧ c.duplicator = none ∧ c.weak_export = false)) :
    pmLookup (regStep m c) O = pmLookup m O := by
  by_cases hc : c.duplicator = none ∧ c.weak_export = false
  · rcases hl : pmLookup m c.object with _ | q
    · rw [regStep_insert m c hc hl]
      have hne : c.object ≠ O := fun he => h ⟨he, hc.1, hc.2⟩
      exact pmLookup_insert_other m c.object O c.export_path hne
    · rw [regStep_skip m c (Or.inr (by rw [hl]; simp))]
  · rw [regStep_skip m c (Or.inl hc)]

/-- Registration over an appended forest. -/
theorem registerF_append (f g : List CtxTree) : ∀ m,
    registerF m (f ++ g) = registerF (registerF m f) g := by
  induction f with
  | nil =>
    intro m
    simp [registerF]
  | cons t rest ih =>
    cases t with
    | node c ts =>
      intro m
      show registerF m (CtxTree.node c ts :: (rest ++ g)) = _
      rw [registerF]
      rw [ih]
      rw [registerF]

/-- Registration of a node forest, head step first, then the combined
tail. -/
theorem registerF_cons_tail (m : PathMap) (c : HierarchyContext) (ts rest : List CtxTree) :
    registerF m (CtxTree.node c ts :: rest) = registerF (regStep m c) (ts ++ rest) := by
  rw [registerF_append]
  rw [registerF]

/-- Registration over a forest with no registrable context for an object
leaves that object's entry unchanged. -/
theorem registerF_lookup_none (O : Nat) (f : List CtxTree) : ∀ m,
    (∀ c ∈ allCtxF f, ¬(c.object = O ∧ c.duplicator = none ∧ c.weak_export = false)) →
    pmLookup (registerF m f) O = pmLookup m O := by
  induction f using forest_ind2 with
  | h0 =>
    intro m _
    simp [registerF]
  | h1 c ts rest IH =>
    intro m hno
    rw [registerF_cons_tail]
    have hhead : ¬(c.object = O ∧ c.duplicator = none ∧ c.weak_export = false) :=
      hno c (by rw [allCtxF_cons]; exact List.mem_cons_self _ _)
    have htail : ∀ x ∈ allCtxF (ts ++ rest),
        ¬(x.object = O ∧ x.duplicator = none ∧ x.weak_export = false) := by
      intro x hx
      refine hno x ?_
      rw [allCtxF_cons, ← allCtxF_append]
      exact List.mem_cons_of_mem _ hx
    rw [IH (regStep m c) htail]
    exact regStep_lookup m c O hhead

/-- Registration over a forest whose unique registrable context for an
object is `c0` binds the object to the path of `c0`. -/
theorem registerF_lookup_owner (O : Nat) (f : List CtxTree) : ∀ m c0,
    pmLookup m O = none →
    (allCtxF f).filter
        (fun c => c.object = O ∧ c.duplicator = none ∧ c.weak_export = false) = [c0] →
    pmLookup (registerF m f) O = some c0.export_path := by
  induction f using forest_ind2 with
  | h0 =>
    intro m c0 _ hf
    simp [allCtxF] at hf
  | h1 c ts rest IH =>
    intro m c0 hm hf
    rw [registerF_cons_tail]
    rw [allCtxF_cons, ← allCtxF_append] at hf
    rw [List.filter_cons] at hf
    by_cases hc : (c.object = O ∧ c.duplicator = none ∧ c.weak_export = false)
    · rw [if_pos (by simpa using hc)] at hf
      have hc0 : c = c0 ∧ (allCtxF (ts ++ rest)).filter
          (fun x => x.object = O ∧ x.duplicator = none ∧ x.weak_export = false) = [] := by
        constructor
        · exact (List.cons.inj hf).1
        · exact (List.cons.inj hf).2
      have hstep : pmLookup (regStep m c) O = some c.export_path := by
        have hl : pmLookup m c.object = none := by rw [hc.1]; exact hm
        rw [regStep_insert m c ⟨hc.2.1, hc.2.2⟩ hl]
        rw [← hc.1]
        exact pmLookup_insert_self m c.object c.export_path
      have htail : ∀ x ∈ allCtxF (ts ++ rest),
          ¬(x.object = O ∧ x.duplicator = none ∧ x.weak_export = false) := by
        intro x hx hcontra
        have hnil := List.filter_eq_nil_iff.mp hc0.2 x hx
        exact hnil (by simpa using hcontra)
      rw [registerF_lookup_none O (ts ++ rest) (regStep m c) htail]
      rw [← hc0.1]
      exact hstep
    · rw [if_neg (by simpa using hc)] at hf
      have hm1 : pmLookup (regStep m c) O = none := by
        rw [regStep_lookup m c O hc]
        exact hm
      exact IH (regStep m c) c0 hm1 hf

/-- After resolution over a graph whose contexts start non-instanced, a
context with non-empty `original_export_path` is duplicated, its
`original_export_path` is the map's binding for its object, and that binding
differs from its own path. -/
theorem resolveF_inst (f : List CtxTree) : ∀ m,
    (∀ c ∈ allCtxF f, c.original_export_path = "") →
    ∀ c' ∈ allCtxF (resolveF m f).1, c'.original_export_path ≠ "" →
      c'.duplicator ≠ none ∧
      pmLookup (resolveF m f).2 c'.object = some c'.original_export_path ∧
      c'.original_export_path ≠ c'.export_path := by
  induction f using forest_ind2 with
  | h0 =>
    intro m _ c' hc'
    simp [resolveF, allCtxF] at hc'
  | h1 c ts rest IH =>
    intro m hempty c0 hmem horig
    rcases h1 : resolveCtx m c with ⟨c', m1⟩
    rcases h2a : resolveF m1 ts with ⟨ts', m2⟩
    rcases h2b : resolveF m2 rest with ⟨rest', m3⟩
    have htr : resolveF m1 (ts ++ rest) = (ts' ++ rest', m3) := by
      rw [resolveF_append, h2a]
      dsimp only
      rw [h2b]
    have hres : resolveF m (CtxTree.node c ts :: rest) = (CtxTree.node c' ts' :: rest', m3) := by
      simp [resolveF, h1, h2a, h2b]
    rw [hres] at hmem ⊢
    have hLe13 : pmLe m1 m3 := by
      have := resolveF_pmLe (ts ++ rest) m1
      rw [htr] at this
      exact this
    have hemptyTail : ∀ x ∈ allCtxF (ts ++ rest), x.original_export_path = "" := by
      intro x hx
      refine hempty x ?_
      rw [allCtxF_cons, ← allCtxF_append]
      exact List.mem_cons_of_mem _ hx
    rw [allCtxF_cons, ← allCtxF_append] at hmem
    rcases List.mem_cons.mp hmem with rfl | hx
    · have hcempty : c.original_export_path = "" :=
        hempty c (by rw [allCtxF_cons]; exact List.mem_cons_self _ _)
      rcases hd : c.duplicator with _ | d
      · rw [resolveCtx_nondup m c hd] at h1
        injection h1 with hc' _
        rw [← hc'] at horig
        exact absurd hcempty horig
      · rcases hl : pmLookup m c.object with _ | q
        · rw [resolveCtx_dup_missing m c d hd hl] at h1
          injection h1 with hc' _
          rw [← hc'] at horig
          simp [HierarchyContext.mark_as_not_instanced] at horig
        · by_cases hq : q ≠ c.export_path
          · rw [resolveCtx_dup_found m c d q hd hl hq] at h1
            injection h1 with hc' hm1e
            refine ⟨?_, ?_, ?_⟩
            · rw [← hc']
              simp [HierarchyContext.mark_as_instance_of, hd]
            · have hq3 : pmLookup m3 c0.object = some q := by
                apply hLe13
                rw [← hm1e]
                have hobj : c0.object = c.object := by
                  rw [← hc']
                  simp [HierarchyContext.mark_as_instance_of]
                rw [hobj]
                exact hl
              rw [hq3]
              have : c0.original_export_path = q := by
                rw [← hc']
                simp [HierarchyContext.mark_as_instance_of]
              rw [this]
            · have h4 : c0.original_export_path = q := by
                rw [← hc']
                simp [HierarchyContext.mark_as_instance_of]
              have h5 : c0.export_path = c.export_path := by
                rw [← hc']
                simp [HierarchyContext.mark_as_instance_of]
              rw [h4, h5]
              exact hq
          · push_neg at hq
            rw [resolveCtx_dup_self m c d hd (by rw [hl, hq])] at h1
            injection h1 with hc' _
            rw [← hc'] at horig
            simp [HierarchyContext.mark_as_not_instanced] at horig
    · have := IH m1 hemptyTail c0 (by rw [htr]; exact hx) horig
      rw [htr] at this
      exact this

/-- Provenance of Original-Path Map entries created by resolution: a binding
after resolution existed before, or belongs to a resolved duplicated
context that owns it with empty `original_export_path`. -/
theorem resolveF_values (f : List CtxTree) : ∀ m o p,
    pmLookup (resolveF m f).2 o = some p →
    pmLookup m o = some p ∨
    ∃ c1 ∈ allCtxF (resolveF m f).1, c1.object = o ∧ c1.export_path = p ∧
      c1.original_export_path = "" ∧ c1.duplicator ≠ none := by
  induction f using forest_ind2 with
  | h0 =>
    intro m o p h
    left
    simpa [resolveF] using h
  | h1 c ts rest IH =>
    intro m o p hlook
    rcases h1 : resolveCtx m c with ⟨c', m1⟩
    rcases h2a : resolveF m1 ts with ⟨ts', m2⟩
    rcases h2b : resolveF m2 rest with ⟨rest', m3⟩
    have htr : resolveF m1 (ts ++ rest) = (ts' ++ rest', m3) := by
      rw [resolveF_append, h2a]
      dsimp only
      rw [h2b]
    have hres : resolveF m (CtxTree.node c ts :: rest) = (CtxTree.node c' ts' :: rest', m3) := by
      simp [resolveF, h1, h2a, h2b]
    rw [hres] at hlook ⊢
    have hIH := IH m1 o p (by rw [htr]; exact hlook)
    rw [htr] at hIH
    rcases hIH with hm1 | ⟨c1, hc1mem, hc1rest⟩
    · rcases hd : c.duplicator with _ | d
      · rw [resolveCtx_nondup m c hd] at h1
        injection h1 with _ hm1e
        left
        rw [hm1e]
        exact hm1
      · rcases hl : pmLookup m c.object with _ | q
        · rw [resolveCtx_dup_missing m c d hd hl] at h1
          injection h1 with hc' hm1e
          by_cases ho : c.object = o
          · right
            refine ⟨c', by rw [allCtxF_cons]; exact List.mem_cons_self _ _, ?_, ?_, ?_, ?_⟩
            · rw [← hc']
              simpa [HierarchyContext.mark_as_not_instanced] using ho
            · rw [← hm1e, ← ho] at hm1
              rw [pmLookup_insert_self] at hm1
              have hp : c.export_path = p := by
                injection hm1
              rw [← hc']
              simpa [HierarchyContext.mark_as_not_instanced] using hp
            · rw [← hc']
              simp [HierarchyContext.mark_as_not_instanced]
            · rw [← hc']
              simp [HierarchyContext.mark_as_not_instanced, hd]
          · left
            rw [← hm1e, pmLookup_insert_other m c.object o c.export_path ho] at hm1
            exact hm1
        · by_cases hq : q ≠ c.export_path
          · rw [resolveCtx_dup_found m c d q hd hl hq] at h1
            injection h1 with _ hm1e
            left
            rw [hm1e]
            exact hm1
          · push_neg at hq
            rw [resolveCtx_dup_self m c d hd (by rw [hl, hq])] at h1
            injection h1 with _ hm1e
            left
            rw [hm1e]
            exact hm1
    · right
      refine ⟨c1, ?_, hc1rest⟩
      rw [allCtxF_cons, ← allCtxF_append]
      exact List.mem_cons_of_mem _ hc1mem

/-- Provenance of Original-Path Map entries created by the registration
step. -/
theorem regStep_values (m : PathMap) (c : HierarchyContext) (o : Nat) (p : String)
    (h : pmLookup (regStep m c) o = some p) :
    pmLookup m o = some p ∨
    (c.object = o ∧ c.export_path = p ∧ c.duplicator = none ∧ c.weak_export = false) := by
  by_cases hc : c.duplicator = none ∧ c.weak_export = false
  · rcases hl : pmLookup m c.object with _ | q
    · rw [regStep_insert m c hc hl] at h
      by_cases ho : c.object = o
      · right
        rw [← ho] at h
        rw [pmLookup_insert_self] at h
        have hp : c.export_path = p := by injection h
        exact ⟨ho, hp, hc.1, hc.2⟩
      · left
        rw [pmLookup_insert_other m c.object o c.export_path ho] at h
        exact h
    · rw [regStep_skip m c (Or.inr (by rw [hl]; simp))] at h
      exact Or.inl h
  · rw [regStep_skip m c (Or.inl hc)] at h
    exact Or.inl h

/-- Provenance of Original-Path Map entries created by registration: a
binding after registration existed before, or is the path of a real
non-duplicated context of the forest. -/
theorem registerF_values (f : List CtxTree) : ∀ m o p,
    pmLookup (registerF m f) o = some p →
    pmLookup m o = some p ∨
    ∃ c1 ∈ allCtxF f, c1.object = o ∧ c1.export_path = p ∧
      c1.duplicator = none ∧ c1.weak_export = false := by
  induction f using forest_ind2 with
  | h0 =>
    intro m o p h
    left
    simpa [registerF] using h
  | h1 c ts rest IH =>
    intro m o p hlook
    rw [registerF_cons_tail] at hlook
    rcases IH (regStep m c) o p hlook with hstep | ⟨c1, hc1mem, hc1rest⟩
    · rcases regStep_values m c o p hstep with hm | ⟨ho, hp, hdu, hwe⟩
      · exact Or.inl hm
      · right
        exact ⟨c, by rw [allCtxF_cons]; exact List.mem_cons_self _ _, ho, hp, hdu, hwe⟩
    · right
      refine ⟨c1, ?_, hc1rest⟩
      rw [allCtxF_cons, ← allCtxF_append]
      exact List.mem_cons_of_mem _ hc1mem

/-- Every real non-duplicated context of a forest has an Original-Path Map
entry after registration. -/
theorem registerF_dom (f : List CtxTree) : ∀ m c0,
    c0 ∈ allCtxF f → c0.duplicator = none → c0.weak_export = false →
    (pmLookup (registerF m f) c0.object).isSome := by
  induction f using forest_ind2 with
  | h0 =>
    intro m c0 h
    simp [allCtxF] at h
  | h1 c ts rest IH =>
    intro m c0 hmem hdu hwe
    rw [registerF_cons_tail]
    rw [allCtxF_cons, ← allCtxF_append] at hmem
    rcases List.mem_cons.mp hmem with rfl | hx
    · have hstep : (pmLookup (regStep m c0) c0.object).isSome := by
        rcases hl : pmLookup m c0.object with _ | q
        · rw [regStep_insert m c0 ⟨hdu, hwe⟩ hl, pmLookup_insert_self]
          rfl
        · rw [regStep_skip m c0 (Or.inr (by rw [hl]; simp))]
          rw [hl]
          rfl
      rcases ho : pmLookup (regStep m c0) c0.object with _ | q
      · rw [ho] at hstep
        exact absurd hstep (by simp)
      · have := registerF_pmLe (ts ++ rest) (regStep m c0) c0.object q ho
        rw [this]
        rfl
    · exact IH (regStep m c) c0 hx hdu hwe

/-- Registration is a no-op when every real non-duplicated context of the
forest already has an entry. -/
theorem registerF_noop (f : List CtxTree) : ∀ m,
    (∀ c ∈ allCtxF f, c.duplicator = none → c.weak_export = false →
      (pmLookup m c.object).isSome) →
    registerF m f = m := by
  induction f using forest_ind2 with
  | h0 =>
    intro m _
    simp [registerF]
  | h1 c ts rest IH =>
    intro m hall
    rw [registerF_cons_tail]
    have hstep : regStep m c = m := by
      by_cases hc : c.duplicator = none ∧ c.weak_export = false
      · refine regStep_skip m c (Or.inr ?_)
        exact hall c (by rw [allCtxF_cons]; exact List.mem_cons_self _ _) hc.1 hc.2
      · exact regStep_skip m c (Or.inl hc)
    rw [hstep]
    refine IH m ?_
    intro x hx hdu hwe
    refine hall x ?_ hdu hwe
    rw [allCtxF_cons, ← allCtxF_append]
    exact List.mem_cons_of_mem _ hx

/-- Resolution preserves the number of top-level entries. -/
theorem resolveF_length (f : List CtxTree) : ∀ m, (resolveF m f).1.length = f.length := by
  induction f with
  | nil =>
    intro m
    simp [resolveF]
  | cons t rest ih =>
    cases t with
    | node c ts =>
      intro m
      rcases h1 : resolveCtx m c with ⟨c', m1⟩
      rcases h2 : resolveF m1 ts with ⟨ts', m2⟩
      rcases h3 : resolveF m2 rest with ⟨rest', m3⟩
      have hres : resolveF m (CtxTree.node c ts :: rest) = (CtxTree.node c' ts' :: rest', m3) := by
        simp [resolveF, h1, h2, h3]
      rw [hres]
      have := ih m2
      rw [h3] at this
      simpa using this

/-- Re-resolving a forest under any map that preserves the bindings of the
first resolution's final map reproduces the same resolved forest and leaves
the map unchanged. -/
theorem resolveF_stable (f : List CtxTree) : ∀ m M f' m',
    resolveF m f = (f', m') → pmLe m' M → resolveF M f = (f', M) := by
  induction f using forest_ind2 with
  | h0 =>
    intro m M f' m' h hle
    rw [resolveF] at h ⊢
    injection h with h1 h2
    rw [← h1]
  | h1 c ts rest IH =>
    intro m M f' m' hrun hle
    rcases h1 : resolveCtx m c with ⟨c', m1⟩
    rcases h2a : resolveF m1 ts with ⟨ts', m2⟩
    rcases h2b : resolveF m2 rest with ⟨rest', m3⟩
    have htr : resolveF m1 (ts ++ rest) = (ts' ++ rest', m3) := by
      rw [resolveF_append, h2a]
      dsimp only
      rw [h2b]
    have hres : resolveF m (CtxTree.node c ts :: rest) = (CtxTree.node c' ts' :: rest', m3) := by
      simp [resolveF, h1, h2a, h2b]
    rw [hres] at hrun
    injection hrun with hf' hm'
    have hle3 : pmLe m3 M := by
      rw [hm']
      exact hle
    have e1 : pmLe m m1 := by
      have := resolveCtx_pmLe m c
      rw [h1] at this
      exact this
    have e2 : pmLe m1 m3 := by
      have := resolveF_pmLe (ts ++ rest) m1
      rw [htr] at this
      exact this
    have eM : pmLe m1 M := pmLe_trans e2 hle3
    have emM : pmLe m M := pmLe_trans e1 eM
    have hhead : resolveCtx M c = (c', M) := by
      rcases hd : c.duplicator with _ | d
      · rw [resolveCtx_nondup m c hd] at h1
        injection h1 with hc' _
        rw [resolveCtx_nondup M c hd, hc']
      · rcases hl : pmLookup m c.object with _ | q
        · rw [resolveCtx_dup_missing m c d hd hl] at h1
          injection h1 with hc' hm1e
          have hMl : pmLookup M c.object = some c.export_path := by
            apply eM
            rw [← hm1e]
            exact pmLookup_insert_self m c.object c.export_path
          rw [resolveCtx_dup_self M c d hd hMl, hc']
        · have hMl : pmLookup M c.object = some q := emM _ _ hl
          by_cases hq : q ≠ c.export_path
          · rw [resolveCtx_dup_found m c d q hd hl hq] at h1
            injection h1 with hc' _
            rw [resolveCtx_dup_found M c d q hd hMl hq, hc']
          · push_neg at hq
            rw [resolveCtx_dup_self m c d hd (by rw [hl, hq])] at h1
            injection h1 with hc' _
            rw [resolveCtx_dup_self M c d hd (by rw [hMl, hq]), hc']
    have htail2 : resolveF M (ts ++ rest) = (ts' ++ rest', M) := IH m1 M _ _ htr hle3
    rcases h4a : resolveF M ts with ⟨ts2, mA⟩
    rcases h4b : resolveF mA rest with ⟨rest2, mB⟩
    have happ : resolveF M (ts ++ rest) = (ts2 ++ rest2, mB) := by
      rw [resolveF_append, h4a]
      dsimp only
      rw [h4b]
    rw [happ] at htail2
    injection htail2 with hll hmm2
    have hlen : ts2.length = ts'.length := by
      have l1 : ts2.length = ts.length := by
        have := resolveF_length ts M
        rw [h4a] at this
        exact this
      have l2 : ts'.length = ts.length := by
        have := resolveF_length ts m1
        rw [h2a] at this
        exact this
      rw [l1, l2]
    obtain ⟨hts, hrest⟩ := List.append_inj hll hlen
    have hfin : resolveF M (CtxTree.node c ts :: rest) = (CtxTree.node c' ts2 :: rest2, mB) := by
      simp [resolveF, hhead, h4a, h4b]
    rw [hfin, ← hf', hts, hrest, hmm2]

/-- Resolution preserves, position by position, each context's object and
duplicator. -/
theorem resolveF_keys (f : List CtxTree) : ∀ m,
    (allCtxF (resolveF m f).1).map (fun c => (c.object, c.duplicator))
      = (allCtxF f).map (fun c => (c.object, c.duplicator)) := by
  induction f using forest_ind2 with
  | h0 =>
    intro m
    simp [resolveF]
  | h1 c ts rest IH =>
    intro m
    rcases h1 : resolveCtx m c with ⟨c', m1⟩
    rcases h2a : resolveF m1 ts with ⟨ts', m2⟩
    rcases h2b : resolveF m2 rest with ⟨rest', m3⟩
    have htr : resolveF m1 (ts ++ rest) = (ts' ++ rest', m3) := by
      rw [resolveF_append, h2a]
      dsimp only
      rw [h2b]
    have hres : resolveF m (CtxTree.node c ts :: rest) = (CtxTree.node c' ts' :: rest', m3) := by
      simp [resolveF, h1, h2a, h2b]
    rw [hres]
    have hIH := IH m1
    rw [htr] at hIH
    rw [allCtxF_cons, allCtxF_cons, ← allCtxF_append, ← allCtxF_append]
    rw [List.map_cons, List.map_cons, hIH]
    have ho : c'.object = c.object := by
      have := (resolveCtx_fields m c).1
      rw [h1] at this
      exact this
    have hd : c'.duplicator = c.duplicator := by
      have := (resolveCtx_fields m c).2.2.1
      rw [h1] at this
      exact this
    rw [ho, hd]

/-- C2: running the full pass twice on an unchanged scene — with identical
scene-evaluator responses, from the state the first pass left behind —
yields the same resolved graph, the same iterator state, identical
`export_path` values and identical `original_export_path` assignments. -/
theorem claim_C2 (s : Scene) (fuel : Nat) (st0 : IterState)
    (f1 f2 : List CtxTree) (st1 st2 : IterState)
    (h1 : iterate s fuel st0 = some (f1, st1))
    (h2 : iterate s fuel st1 = some (f2, st2)) :
    f2 = f1 ∧ st2 = st1 ∧ pathsOfF f2 = pathsOfF f1 ∧
    (allCtxF f2).map (fun c => c.original_export_path)
      = (allCtxF f1).map (fun c => c.original_export_path) := by
  cases hc : export_graph_construct s fuel with
  | none =>
    rw [iterate, hc] at h1
    exact absurd h1 (by simp)
  | some f0 =>
    rw [iterate_some s fuel st0 f0 hc] at h1
    rw [iterate_some s fuel st1 f0 hc] at h2
    rcases hA : resolveF (registerF st0.originals_export_paths
        (assignF "" [] (sortAll (pruneF f0))))
        (assignF "" [] (sortAll (pruneF f0))) with ⟨fA, mA⟩
    rw [hA] at h1
    simp only [Option.some.injEq, Prod.mk.injEq] at h1
    obtain ⟨hf1, hst1⟩ := h1
    have horig1 : st1.originals_export_paths = mA := by
      rw [← hst1]
    have hnoop : registerF mA (assignF "" [] (sortAll (pruneF f0))) = mA := by
      apply registerF_noop
      intro c hcmem hdu hwe
      have h01 := registerF_dom (assignF "" [] (sortAll (pruneF f0)))
        st0.originals_export_paths c hcmem hdu hwe
      rcases hq : pmLookup (registerF st0.originals_export_paths
          (assignF "" [] (sortAll (pruneF f0)))) c.object with _ | q
      · rw [hq] at h01
        exact absurd h01 (by simp)
      · have hle : pmLe (registerF st0.originals_export_paths
            (assignF "" [] (sortAll (pruneF f0)))) mA := by
          have := resolveF_pmLe (assignF "" [] (sortAll (pruneF f0)))
            (registerF st0.originals_export_paths (assignF "" [] (sortAll (pruneF f0))))
          rw [hA] at this
          exact this
        rw [hle _ _ hq]
        rfl
    have hstable : resolveF mA (assignF "" [] (sortAll (pruneF f0)))
        = (fA, mA) :=
      resolveF_stable (assignF "" [] (sortAll (pruneF f0)))
        (registerF st0.originals_export_paths (assignF "" [] (sortAll (pruneF f0))))
        mA fA mA hA (fun _ _ h => h)
    rw [horig1, hnoop, hstable] at h2
    simp only [Option.some.injEq, Prod.mk.injEq] at h2
    obtain ⟨hf2, hst2⟩ := h2
    have hff : f2 = f1 := by rw [← hf2, ← hf1]
    have hss : st2 = st1 := by rw [← hst2, ← hst1]
    exact ⟨hff, hss, by rw [hff], by rw [hff]⟩

/-- Witness for C2: two consecutive passes over the one-object scene agree
on the resolved graph, the state, the paths and the instance references. -/
theorem claim_C2_witness :
    passS2.1 = passS1.1 ∧ (⟨passS2.2⟩ : IterState) = ⟨passS1.2⟩ ∧
    pathsOfF passS2.1 = pathsOfF passS1.1 ∧
    (allCtxF passS2.1).map (fun c => c.original_export_path)
      = (allCtxF passS1.1).map (fun c => c.original_export_path) :=
  claim_C2 sceneS 2 ⟨[]⟩ passS1.1 passS2.1 ⟨passS1.2⟩ ⟨passS2.2⟩
    (iterate_some sceneS 2 ⟨[]⟩ _ rfl) (iterate_some sceneS 2 ⟨passS1.2⟩ _ rfl)

/-- C3: after duplication resolution, among the contexts of an object that
is referenced via duplication — its duplicated contexts together with its
real non-duplicated context when present — exactly one has an empty
`original_export_path` (the canonical owner) and every other one has
`original_export_path` equal to the canonical owner's `export_path`.  The
hypotheses are the invariants established by the earlier phases: distinct
non-empty paths, no pre-existing instance marks, and at most one real
non-duplicated context per object. -/
theorem claim_C3 (f2 : List CtxTree) (O : Nat)
    (hnodup : (pathsOfF f2).Nodup)
    (hempty : ∀ c ∈ allCtxF f2, c.original_export_path = "")
    (hne : "" ∉ pathsOfF f2)
    (hnd : ((allCtxF f2).filter
        (fun c => c.object = O ∧ c.duplicator = none ∧ c.weak_export = false)).length ≤ 1)
    (hdup : ∃ c ∈ allCtxF f2, c.object = O ∧ c.duplicator ≠ none) :
    ∃ cstar ∈ (allCtxF (resolveF (registerF [] f2) f2).1).filter
        (fun c => c.object = O ∧ (c.duplicator ≠ none ∨ c.weak_export = false)),
      cstar.original_export_path = "" ∧
      (∀ c ∈ (allCtxF (resolveF (registerF [] f2) f2).1).filter
          (fun c => c.object = O ∧ (c.duplicator ≠ none ∨ c.weak_export = false)),
        c.original_export_path = "" → c = cstar) ∧
      (∀ c ∈ (allCtxF (resolveF (registerF [] f2) f2).1).filter
          (fun c => c.object = O ∧ (c.duplicator ≠ none ∨ c.weak_export = false)),
        c ≠ cstar → c.original_export_path = cstar.export_path) := by
  rcases hA : resolveF (registerF [] f2) f2 with ⟨F, m'⟩
  have hpathsF : pathsOfF F = pathsOfF f2 := by
    have := resolveF_paths f2 (registerF [] f2)
    rw [hA] at this
    exact this
  have hnodupF : ((allCtxF F).map (fun c => c.export_path)).Nodup := by
    have : (pathsOfF F).Nodup := by rw [hpathsF]; exact hnodup
    exact this
  have hneF : "" ∉ pathsOfF F := by rw [hpathsF]; exact hne
  have hinj : ∀ x ∈ allCtxF F, ∀ y ∈ allCtxF F, x.export_path = y.export_path → x = y :=
    List.inj_on_of_nodup_map hnodupF
  have hpathmem : ∀ x ∈ allCtxF F, x.export_path ≠ "" := by
    intro x hx he
    refine hneF ?_
    rw [← he]
    exact List.mem_map_of_mem _ hx
  have hSmem : ∀ x : HierarchyContext, x ∈ (allCtxF F).filter
      (fun c => c.object = O ∧ (c.duplicator ≠ none ∨ c.weak_export = false)) ↔
      (x ∈ allCtxF F ∧ x.object = O ∧ (x.duplicator ≠ none ∨ x.weak_export = false)) := by
    intro x
    simp [List.mem_filter]
  rcases hfil : (allCtxF f2).filter
      (fun c => c.object = O ∧ c.duplicator = none ∧ c.weak_export = false)
    with _ | ⟨c_nd, ndrest⟩
  · have hno : ∀ x ∈ allCtxF f2,
        ¬(x.object = O ∧ x.duplicator = none ∧ x.weak_export = false) := by
      intro x hx hcon
      have := List.filter_eq_nil_iff.mp hfil x hx
      exact this (by simpa using hcon)
    have hm1 : pmLookup (registerF [] f2) O = none := by
      rw [registerF_lookup_none O f2 [] hno]
      rfl
    have hmiss := resolveF_missing O f2 (registerF [] f2) hm1
    rw [hA] at hmiss
    rcases hmiss with ⟨hall, _⟩ | ⟨c1, hc1mem, hc1O, hc1d, hc1orig, _, hc1all⟩
    · exfalso
      obtain ⟨cD, hcD, hcDO, hcDd⟩ := hdup
      have hkeys := resolveF_keys f2 (registerF [] f2)
      rw [hA] at hkeys
      have hmm : (cD.object, cD.duplicator)
          ∈ (allCtxF F).map (fun c => (c.object, c.duplicator)) := by
        rw [hkeys]
        exact List.mem_map_of_mem _ hcD
      obtain ⟨c', hc'mem, hc'eq⟩ := List.mem_map.mp hmm
      obtain ⟨he1, he2⟩ := Prod.mk.inj hc'eq
      have hnone := hall c' hc'mem (by rw [he1, hcDO])
      rw [hnone] at he2
      exact hcDd he2.symm
    · refine ⟨c1, (hSmem c1).mpr ⟨hc1mem, hc1O, Or.inl hc1d⟩, hc1orig, ?_, ?_⟩
      · intro c hc hcorig
        obtain ⟨hcF, hcO, hcor⟩ := (hSmem c).mp hc
        rcases hcd : c.duplicator with _ | d
        · exfalso
          have hcw : c.weak_export = false := by
            rcases hcor with h | h
            · exact absurd hcd h
            · exact h
          have hcf2 : c ∈ allCtxF f2 :=
            resolveF_nondup_mem f2 (registerF [] f2) c (by rw [hA]; exact hcF) hcd
          have hmem2 : c ∈ (allCtxF f2).filter
              (fun x => x.object = O ∧ x.duplicator = none ∧ x.weak_export = false) :=
            List.mem_filter.mpr ⟨hcf2, by simp [hcO, hcd, hcw]⟩
          rw [hfil] at hmem2
          simp at hmem2
        · have hdich := hc1all c hcF hcO (by rw [hcd]; simp)
          by_cases hpe : c.export_path = c1.export_path
          · exact hinj c hcF c1 hc1mem hpe
          · have hor := hdich.1 hpe
            rw [hor] at hcorig
            exact absurd hcorig (hpathmem c1 hc1mem)
      · intro c hc hcne
        obtain ⟨hcF, hcO, hcor⟩ := (hSmem c).mp hc
        rcases hcd : c.duplicator with _ | d
        · exfalso
          have hcw : c.weak_export = false := by
            rcases hcor with h | h
            · exact absurd hcd h
            · exact h
          have hcf2 : c ∈ allCtxF f2 :=
            resolveF_nondup_mem f2 (registerF [] f2) c (by rw [hA]; exact hcF) hcd
          have hmem2 : c ∈ (allCtxF f2).filter
              (fun x => x.object = O ∧ x.duplicator = none ∧ x.weak_export = false) :=
            List.mem_filter.mpr ⟨hcf2, by simp [hcO, hcd, hcw]⟩
          rw [hfil] at hmem2
          simp at hmem2
        · have hdich := hc1all c hcF hcO (by rw [hcd]; simp)
          by_cases hpe : c.export_path = c1.export_path
          · exact absurd (hinj c hcF c1 hc1mem hpe) hcne
          · exact hdich.1 hpe
  · have hrest : ndrest = [] := by
      rw [hfil] at hnd
      simp at hnd
      exact hnd
    subst hrest
    have hcndsplit : c_nd ∈ allCtxF f2 ∧ c_nd.object = O ∧ c_nd.duplicator = none ∧
        c_nd.weak_export = false := by
      have hm : c_nd ∈ (allCtxF f2).filter
          (fun c => c.object = O ∧ c.duplicator = none ∧ c.weak_export = false) := by
        rw [hfil]
        exact List.mem_cons_self _ _
      obtain ⟨hmem, hp⟩ := List.mem_filter.mp hm
      simp at hp
      exact ⟨hmem, hp.1, hp.2.1, hp.2.2⟩
    obtain ⟨hcndf2, hcndO, hcnddup, hcndweak⟩ := hcndsplit
    have hm1 : pmLookup (registerF [] f2) O = some c_nd.export_path :=
      registerF_lookup_owner O f2 [] c_nd rfl hfil
    have hfound := resolveF_found O c_nd.export_path f2 (registerF [] f2) hm1
    rw [hA] at hfound
    obtain ⟨_, hdich⟩ := hfound
    have hcndF : c_nd ∈ allCtxF F := by
      have := resolveF_nondup_mem_back f2 (registerF [] f2) c_nd hcndf2 hcnddup
      rw [hA] at this
      exact this
    refine ⟨c_nd, (hSmem c_nd).mpr ⟨hcndF, hcndO, Or.inr hcndweak⟩,
      hempty c_nd hcndf2, ?_, ?_⟩
    · intro c hc hcorig
      obtain ⟨hcF, hcO, hcor⟩ := (hSmem c).mp hc
      rcases hcd : c.duplicator with _ | d
      · have hcw : c.weak_export = false := by
          rcases hcor with h | h
          · exact absurd hcd h
          · exact h
        have hcf2 : c ∈ allCtxF f2 :=
          resolveF_nondup_mem f2 (registerF [] f2) c (by rw [hA]; exact hcF) hcd
        have hmem2 : c ∈ (allCtxF f2).filter
            (fun x => x.object = O ∧ x.duplicator = none ∧ x.weak_export = false) :=
          List.mem_filter.mpr ⟨hcf2, by simp [hcO, hcd, hcw]⟩
        rw [hfil] at hmem2
        simpa using hmem2
      · have hdich2 := hdich c hcF hcO (by rw [hcd]; simp)
        by_cases hpe : c.export_path = c_nd.export_path
        · exact hinj c hcF c_nd hcndF hpe
        · have hor := hdich2.1 hpe
          rw [hor] at hcorig
          exact absurd hcorig (hpathmem c_nd hcndF)
    · intro c hc hcne
      obtain ⟨hcF, hcO, hcor⟩ := (hSmem c).mp hc
      rcases hcd : c.duplicator with _ | d
      · have hcw : c.weak_export = false := by
          rcases hcor with h | h
          · exact absurd hcd h
          · exact h
        have hcf2 : c ∈ allCtxF f2 :=
          resolveF_nondup_mem f2 (registerF [] f2) c (by rw [hA]; exact hcF) hcd
        have hmem2 : c ∈ (allCtxF f2).filter
            (fun x => x.object = O ∧ x.duplicator = none ∧ x.weak_export = false) :=
          List.mem_filter.mpr ⟨hcf2, by simp [hcO, hcd, hcw]⟩
        rw [hfil] at hmem2
        simp at hmem2
        exact absurd hmem2 hcne
      · have hdich2 := hdich c hcF hcO (by rw [hcd]; simp)
        by_cases hpe : c.export_path = c_nd.export_path
        · exact absurd (hinj c hcF c_nd hcndF hpe) hcne
        · exact hdich2.1 hpe

/-- Witness for C3 on the Scenario-B graph: object `5` has a direct real
context at `/X` and two duplicated contexts; exactly one canonical owner
results. -/
theorem claim_C3_witness :
    ∃ cstar ∈ (allCtxF (resolveF (registerF [] forestB) forestB).1).filter
        (fun c => c.object = 5 ∧ (c.duplicator ≠ none ∨ c.weak_export = false)),
      cstar.original_export_path = "" ∧
      (∀ c ∈ (allCtxF (resolveF (registerF [] forestB) forestB).1).filter
          (fun c => c.object = 5 ∧ (c.duplicator ≠ none ∨ c.weak_export = false)),
        c.original_export_path = "" → c = cstar) ∧
      (∀ c ∈ (allCtxF (resolveF (registerF [] forestB) forestB).1).filter
          (fun c => c.object = 5 ∧ (c.duplicator ≠ none ∨ c.weak_export = false)),
        c ≠ cstar → c.original_export_path = cstar.export_path) := by
  refine claim_C3 forestB 5 ?_ ?_ ?_ ?_ ?_
  · simp [pathsOfF, forestB, allCtxF, mkCtx]
  · simp [forestB, allCtxF, mkCtx]
  · simp [pathsOfF, forestB, allCtxF, mkCtx]
  · simp [forestB, allCtxF, mkCtx]
  · simp [forestB, allCtxF, mkCtx]

/-- C8: after duplication resolution of a graph with no pre-existing
instance marks, `original_export_path` is non-empty only on a duplicated
context, in which case it is the path of another context of the same object
that owns the real data (its own `original_export_path` empty); and when the
referenced original is excluded from export — no real non-duplicated
context of the object exists — the object's sole duplicated context keeps an
empty `original_export_path` even though `duplicator` is set, and is
registered as the object's first real occurrence. -/
theorem claim_C8 (f2 : List CtxTree) (O : Nat)
    (hempty : ∀ c ∈ allCtxF f2, c.original_export_path = "") :
    (∀ c ∈ allCtxF (resolveF (registerF [] f2) f2).1,
       c.original_export_path ≠ "" →
       c.duplicator ≠ none ∧ c.original_export_path ≠ c.export_path ∧
       ∃ c' ∈ allCtxF (resolveF (registerF [] f2) f2).1,
         c' ≠ c ∧ c'.object = c.object ∧ c'.export_path = c.original_export_path ∧
         c'.original_export_path = "") ∧
    ((∀ c ∈ allCtxF f2, ¬(c.object = O ∧ c.duplicator = none ∧ c.weak_export = false)) →
     ∀ c1, (allCtxF (resolveF (registerF [] f2) f2).1).filter
         (fun c => c.object = O ∧ c.duplicator ≠ none) = [c1] →
       c1.original_export_path = "" ∧
       pmLookup (resolveF (registerF [] f2) f2).2 O = some c1.export_path) := by
  rcases hA : resolveF (registerF [] f2) f2 with ⟨F, m'⟩
  constructor
  · intro c hc hcor
    have hinst := resolveF_inst f2 (registerF [] f2) hempty c (by rw [hA]; exact hc) hcor
    rw [hA] at hinst
    obtain ⟨hdup, hlook, hnepath⟩ := hinst
    refine ⟨hdup, hnepath, ?_⟩
    have hval := resolveF_values f2 (registerF [] f2) c.object c.original_export_path
      (by rw [hA]; exact hlook)
    rw [hA] at hval
    rcases hval with hreg | ⟨c1, hc1mem, hc1O, hc1p, hc1orig, _⟩
    · rcases registerF_values f2 [] c.object c.original_export_path hreg
        with hnil | ⟨c1, hc1mem, hc1O, hc1p, hc1du, hc1we⟩
      · exact absurd hnil (by simp [pmLookup])
      · have hc1F : c1 ∈ allCtxF F := by
          have := resolveF_nondup_mem_back f2 (registerF [] f2) c1 hc1mem hc1du
          rw [hA] at this
          exact this
        have hc1orig : c1.original_export_path = "" := hempty c1 hc1mem
        refine ⟨c1, hc1F, ?_, hc1O, hc1p, hc1orig⟩
        intro he
        rw [he] at hc1orig
        exact hcor hc1orig
    · refine ⟨c1, hc1mem, ?_, hc1O, hc1p, hc1orig⟩
      intro he
      rw [he] at hc1orig
      exact hcor hc1orig
  · intro hnone c1 hfil
    have hm1 : pmLookup (registerF [] f2) O = none := by
      rw [registerF_lookup_none O f2 [] hnone]
      rfl
    have hmiss := resolveF_missing O f2 (registerF [] f2) hm1
    rw [hA] at hmiss
    have hc1mem : c1 ∈ allCtxF F ∧ c1.object = O ∧ c1.duplicator ≠ none := by
      have hm : c1 ∈ (allCtxF F).filter (fun c => c.object = O ∧ c.duplicator ≠ none) := by
        rw [hfil]
        exact List.mem_cons_self _ _
      obtain ⟨hmem, hp⟩ := List.mem_filter.mp hm
      simp at hp
      exact ⟨hmem, hp.1, hp.2⟩
    rcases hmiss with ⟨hall, _⟩ | ⟨cw, hcwmem, hcwO, hcwd, hcworig, hcwmap, _⟩
    · exact absurd (hall c1 hc1mem.1 hc1mem.2.1) hc1mem.2.2
    · have hcwfil : cw ∈ (allCtxF F).filter (fun c => c.object = O ∧ c.duplicator ≠ none) :=
        List.mem_filter.mpr ⟨hcwmem, by simp [hcwO, hcwd]⟩
      rw [hfil] at hcwfil
      simp at hcwfil
      rw [← hcwfil]
      exact ⟨hcworig, hcwmap⟩

/-- Witness for C8 on the excluded-original graph: the sole duplicated
context of object `7` keeps an empty `original_export_path` and is
registered as the object's first real occurrence. -/
theorem claim_C8_witness :
    ctxE.original_export_path = "" ∧
    pmLookup (resolveF (registerF [] forestE) forestE).2 7 = some ctxE.export_path := by
  refine (claim_C8 forestE 7 ?_).2 ?_ ctxE ?_
  · simp [forestE, allCtxF, mkCtx, ctxE]
  · simp [forestE, allCtxF, mkCtx, ctxE]
  · simp [forestE, allCtxF, mkCtx, ctxE, resolveF, resolveCtx, registerF, regStep,
      pmLookup, pmInsert, HierarchyContext.mark_as_not_instanced, List.filter]

end HierIter
